import Mathlib

/-!
Verification of the jflatdb flat-file document store.

This file gives a shallow embedding of the parts of the source relevant to
the checked claims:

* `jflatdb/indexer.py` — operator-based predicate matching (`Indexer.query`),
  including the `$like` SQL-pattern branch which builds a Python regular
  expression and runs `re.search` with `re.IGNORECASE`;
* `jflatdb/query_cache.py` — the LRU `QueryCache`;
* `jflatdb/storage.py` — the WAL + temp-file + atomic-rename write path;
* `jflatdb/database.py` — `load`, `delete`, `migrate_schema`;
* `jflatdb/transaction.py` — snapshot transactions;
* `jflatdb/schema_migration.py` — the per-field migration operations.

Modelling conventions:

* Python values stored in records are modelled by `JFlat.Value`, covering the
  fragment exercised by the code under scrutiny: `None`, `int`, `bool`, `str`
  and lists.  (Floats and nested mappings are not needed by any claim.)
* A Python `dict` used as a record or query is an insertion-ordered
  association list `List (String × Value)` with pairwise-distinct keys.
* Raising an exception is modelled by `Except` (or by returning the pair of
  the post-state and an `Option` error where the caller observes the mutated
  state after an exception, which is how Python aliasing behaves).
* Machine integers do not occur (Python ints are unbounded), so `Int` is used
  directly.
-/

namespace JFlat

/-- The fragment of Python runtime values stored in records and queries. -/
inductive Value where
  | vnull
  | vint (n : Int)
  | vbool (b : Bool)
  | vstr (s : String)
  | vlist (xs : List Value)
deriving Repr

/-- A Python dict used as a record: insertion-ordered association list. -/
abbrev Rec := List (String × Value)

/-- `d.get(k)` — `none` when the key is absent. -/
def lookupV (r : Rec) (k : String) : Option Value :=
  (r.find? (fun p => p.1 = k)).map (·.2)

/-- `k in d` for a Python dict. -/
def hasKey (r : Rec) (k : String) : Bool :=
  r.any (fun p => p.1 = k)

/-- `d.get(k)`, with Python's `None` for a missing key.  The code under
verification only ever uses `.get`, which cannot distinguish a stored `None`
from an absent key, so collapsing both to `vnull` is faithful there. -/
def getV (r : Rec) (k : String) : Value :=
  (lookupV r k).getD Value.vnull

/-- `d[k] = v`: replace the value at `k` in place, else append at the end
(Python dict assignment preserves insertion order of an existing key). -/
def setKey (r : Rec) (k : String) (v : Value) : Rec :=
  match r with
  | [] => [(k, v)]
  | (k', v') :: rest =>
      if k' = k then (k, v) :: rest else (k', v') :: setKey rest k v

/-- `del d[k]` / the removal half of `d.pop(k)`: drop the first binding. -/
def delKey (r : Rec) (k : String) : Rec :=
  r.eraseP (fun p => p.1 = k)

/-- `d.update(u)`: apply each assignment of `u` in order. -/
def dictUpdate (r : Rec) (u : Rec) : Rec :=
  u.foldl (fun acc p => setKey acc p.1 p.2) r

/-- Numeric view of Python ints and bools (`True == 1`, `False == 0`). -/
def numOf : Value → Option Int
  | Value.vint n => some n
  | Value.vbool b => some (if b then 1 else 0)
  | _ => none

mutual
/-- Python `==` on the modelled value fragment.  Never raises.  Ints and
bools compare numerically (`True == 1`); distinct types are unequal. -/
def pyEq : Value → Value → Bool
  | Value.vnull, Value.vnull => true
  | Value.vstr a, Value.vstr b => a = b
  | Value.vlist a, Value.vlist b => pyEqList a b
  | a, b =>
      match numOf a, numOf b with
      | some x, some y => x = y
      | _, _ => false

/-- Pointwise Python `==` on lists. -/
def pyEqList : List Value → List Value → Bool
  | [], [] => true
  | a :: as, b :: bs => pyEq a b && pyEqList as bs
  | _, _ => false
end

mutual
/-- Python `<`.  `none` models a raised `TypeError` (unorderable types).
Numbers (ints/bools) and strings are ordered; lists are ordered
lexicographically; any cross-type or null comparison raises. -/
def pyLt : Value → Value → Option Bool
  | Value.vstr a, Value.vstr b => some (decide (a < b))
  | Value.vlist a, Value.vlist b => pyLtList a b
  | a, b =>
      match numOf a, numOf b with
      | some x, some y => some (decide (x < y))
      | _, _ => none

/-- Python list `<`: skip equal heads, then compare; a strict prefix is
smaller. -/
def pyLtList : List Value → List Value → Option Bool
  | [], [] => some false
  | [], _ :: _ => some true
  | _ :: _, [] => some false
  | a :: as, b :: bs => if pyEq a b then pyLtList as bs else pyLt a b
end

mutual
/-- Python `<=`; `none` models a raised `TypeError`. -/
def pyLe : Value → Value → Option Bool
  | Value.vstr a, Value.vstr b => some (decide (a ≤ b))
  | Value.vlist a, Value.vlist b => pyLeList a b
  | a, b =>
      match numOf a, numOf b with
      | some x, some y => some (decide (x ≤ y))
      | _, _ => none

/-- Python list `<=`: skip equal heads; a (possibly equal) prefix is `≤`. -/
def pyLeList : List Value → List Value → Option Bool
  | [], _ => some true
  | _ :: _, [] => some false
  | a :: as, b :: bs => if pyEq a b then pyLeList as bs else pyLt a b
end

/-- Does `t` match the front of `s` (plain character equality)? -/
def leadMatch : List Char → List Char → Bool
  | [], _ => true
  | _ :: _, [] => false
  | c :: t', d :: s' => c = d && leadMatch t' s'

/-- Does `s` contain `t` as a contiguous substring (Python `t in s`)? -/
def strContains (s t : List Char) : Bool :=
  match s with
  | [] => t.isEmpty
  | _ :: s' => leadMatch t s || strContains s' t

/-- Python `x in c` membership.  `none` models a raised `TypeError`
(non-iterable container, or non-string needle in a string). -/
def pyIn (item container : Value) : Option Bool :=
  match container with
  | Value.vlist xs => some (xs.any (fun x => pyEq item x))
  | Value.vstr s =>
      match item with
      | Value.vstr t => some (strContains s.toList t.toList)
      | _ => none
  | _ => none

mutual
/-- Python `repr` on the modelled fragment (used by `str` on lists). -/
def pyRepr : Value → String
  | Value.vnull => "None"
  | Value.vint n => toString n
  | Value.vbool b => if b then "True" else "False"
  | Value.vstr s => String.singleton (Char.ofNat 39) ++ s ++ String.singleton (Char.ofNat 39)
  | Value.vlist xs => "[" ++ String.intercalate ", " (pyReprList xs) ++ "]"

/-- `repr` of each list element in order. -/
def pyReprList : List Value → List String
  | [] => []
  | v :: vs => pyRepr v :: pyReprList vs
end

/-- Python `str()` as applied by the `$like` branch of `Indexer.query`. -/
def pyStr : Value → String
  | Value.vnull => "None"
  | Value.vint n => toString n
  | Value.vbool b => if b then "True" else "False"
  | Value.vstr s => s
  | Value.vlist xs => pyRepr (Value.vlist xs)

/-- Is a value Python's `None` (the `is None` identity test)? -/
def Value.isNull : Value → Bool
  | Value.vnull => true
  | _ => false

/-- Exceptions raised (and possibly caught) inside `Indexer.query` and
`Database.delete`.  `typeErr` stands for the `(TypeError, ValueError)` pair
the source catches; `reErr` is `re.error` from an invalid regular
expression, which that handler does NOT catch; `keyErr` is `KeyError`. -/
inductive PyErr where
  | typeErr
  | reErr
  | keyErr
deriving DecidableEq, Repr

/-- Does the `except (TypeError, ValueError)` clause catch this error? -/
def caught : PyErr → Bool
  | PyErr.typeErr => true
  | _ => false

/-- `Except.isOk` for this development. -/
def isOkE {ε α : Type} : Except ε α → Bool
  | Except.ok _ => true
  | Except.error _ => false

/-!
## Model of the fragment of Python regular expressions used by `$like`

`Indexer.query` builds `pattern = str(op_value).replace("%", ".*").replace("_", ".")`
with `^`/`$` anchors and evaluates `re.search(pattern, str(item_value), re.IGNORECASE)`.
The model below is exact on the fragment those patterns use when the original
`$like` pattern contains no regex metacharacters: literal characters, `.`,
`X*`, and the two anchors.  Python semantics modelled precisely: `.` does not
match a newline; `$` also matches just before a single trailing newline;
`re.IGNORECASE` compares lower-cased characters.  Any other metacharacter
(`\\ | ? + ( ) [ ] { }`, an inner `^`/`$`, or a misplaced `*`) makes the
parse fail, modelling `re.error`; for `(` and `)` this is exactly Python's
behaviour (unbalanced parenthesis), and no theorem below depends on the
parser's behaviour outside this fragment.
-/

/-- A single regex atom: a literal character or the wildcard `.`. -/
inductive RAtom where
  | lit (c : Char)
  | dot
deriving DecidableEq, Repr

/-- A regex piece: an atom, or a starred atom. -/
inductive RPiece where
  | once (a : RAtom)
  | star (a : RAtom)
deriving DecidableEq, Repr

/-- Characters the pattern parser refuses (modelling `re.error` for `(`/`)`
 and conservatively rejecting the rest of regex syntax). -/
def badRegexChars : List Char :=
  ['\\', '|', '?', '+', '(', ')', '[', ']', Char.ofNat 123, Char.ofNat 125, '^', '$']

/-- Parse the body of a pattern (anchors already stripped) into pieces,
accumulated in reverse. -/
def parseAux : List Char → List RPiece → Except PyErr (List RPiece)
  | [], acc => Except.ok acc
  | c :: cs, acc =>
      if c = '*' then
        match acc with
        | RPiece.once a :: acc' => parseAux cs (RPiece.star a :: acc')
        | _ => Except.error PyErr.reErr
      else if c = '.' then parseAux cs (RPiece.once RAtom.dot :: acc)
      else if c ∈ badRegexChars then Except.error PyErr.reErr
      else parseAux cs (RPiece.once (RAtom.lit c) :: acc)

/-- Strip a leading `^` anchor. -/
def stripCaret (cs : List Char) : Bool × List Char :=
  match cs with
  | c :: rest => if c = '^' then (true, rest) else (false, c :: rest)
  | [] => (false, [])

/-- Strip a trailing `$` anchor. -/
def stripDollar (cs : List Char) : Bool × List Char :=
  if cs.getLast? = some '$' then (true, cs.dropLast) else (false, cs)

/-- Parse a whole pattern: a leading `^` anchors the start, a trailing `$`
anchors the end, the rest must be atoms and stars. -/
def parseRegex (cs : List Char) : Except PyErr (Bool × Bool × List RPiece) :=
  let s1 := stripCaret cs
  let s2 := stripDollar s1.2
  match parseAux s2.2 [] with
  | Except.error e => Except.error e
  | Except.ok acc => Except.ok (s1.1, s2.1, acc.reverse)

/-- Case-insensitive character equality (`re.IGNORECASE`). -/
def ciEq (a b : Char) : Bool := a.toLower = b.toLower

/-- Does `.` match this character?  (No `re.DOTALL`: newline excluded.) -/
def dotM (c : Char) : Bool := c ≠ '\n'

/-- Does an atom match a character? -/
def atomM : RAtom → Char → Bool
  | RAtom.lit l, c => ciEq l c
  | RAtom.dot, c => dotM c

/-- Where `$` matches: at the end of input, or before a sole trailing
newline. -/
def atEnd : List Char → Bool
  | [] => true
  | [c] => c = '\n'
  | _ => false

/-- Backtracking matcher for a piece list against input starting here.
`needEnd = true` demands the match extend to the end of input (`$`);
otherwise trailing input is ignored. -/
def rmatch : List RPiece → List Char → Bool → Bool
  | [], s, needEnd => if needEnd then atEnd s else true
  | RPiece.once _ :: _, [], _ => false
  | RPiece.once a :: ps, c :: s, ne => atomM a c && rmatch ps s ne
  | RPiece.star a :: ps, s, ne =>
      rmatch ps s ne ||
        match s with
        | [] => false
        | c :: s' => atomM a c && rmatch (RPiece.star a :: ps) s' ne
termination_by ps s _ => (s.length, ps.length)

/-- Unanchored search: try a match at every start position (`re.search`
without a leading `^`). -/
def rsearch (ps : List RPiece) (s : List Char) (anchE : Bool) : Bool :=
  rmatch ps s anchE ||
    match s with
    | [] => false
    | _ :: s' => rsearch ps s' anchE

/-- `re.search(pattern, s, re.IGNORECASE)` as a Boolean, or `re.error`. -/
def regexSearch (pat s : List Char) : Except PyErr Bool :=
  match parseRegex pat with
  | Except.error e => Except.error e
  | Except.ok (anchS, anchE, ps) =>
      Except.ok (if anchS then rmatch ps s anchE else rsearch ps s anchE)

/-!
## The `$like` translation (`indexer.py` lines 67–73)
-/

/-- Image of one pattern character under
`replace("%", ".*").replace("_", ".")`. -/
def likeChar (c : Char) : List Char :=
  if c = '%' then ['.', '*'] else if c = '_' then ['.'] else [c]

/-- Character-by-character image of
`pattern.replace("%", ".*").replace("_", ".")`.  The two sequential
`str.replace` calls coincide with this single pass because `%` and `_` are
single characters and the first replacement's output `.*` contains no `_`. -/
def likeCore : List Char → List Char
  | [] => []
  | c :: cs => likeChar c ++ likeCore cs

/-- The translated pattern with anchors: `^` unless the original pattern
starts with `%`, `$` unless it ends with `%`. -/
def likeTranslate (p : List Char) : List Char :=
  let base := likeCore p
  let base1 := if p.head? = some '%' then base else '^' :: base
  if p.getLast? = some '%' then base1 else base1 ++ ['$']

/-- The `$like` regex test the source performs on the string forms. -/
def likeMatches (pat s : List Char) : Except PyErr Bool :=
  regexSearch (likeTranslate pat) s

/-!
## `Indexer.query` (`indexer.py` lines 34–82)
-/

/-- A query value: a plain literal (equality) or an operator-expression
(`isinstance(value, dict)` in the source). -/
inductive QVal where
  | lit (v : Value)
  | ops (l : List (String × Value))

/-- A query: field name to literal or operator-expression. -/
abbrev Query := List (String × QVal)

/-- Is the operator in the null-short-circuit list of line 44? -/
def opNullOrd (op : String) : Bool :=
  op = "$gt" || op = "$lt" || op = "$gte" || op = "$lte" || op = "$between"

/-- Lift a comparison (where `none` is a raised `TypeError`) to `Except`. -/
def liftCmp : Option Bool → Except PyErr Bool
  | none => Except.error PyErr.typeErr
  | some b => Except.ok b

/-- One iteration of the operator loop, before the `except` clause:
`ok true` means the loop continues, `ok false` means `return False`,
`error` is a raised exception. -/
def evalOpRaw (itemValue : Value) (op : String) (opv : Value) : Except PyErr Bool :=
  if itemValue.isNull && opNullOrd op then Except.ok false
  else if op = "$gt" then liftCmp (pyLt opv itemValue)
  else if op = "$lt" then liftCmp (pyLt itemValue opv)
  else if op = "$gte" then liftCmp (pyLe opv itemValue)
  else if op = "$lte" then liftCmp (pyLe itemValue opv)
  else if op = "$ne" then Except.ok (!(pyEq itemValue opv))
  else if op = "$in" then liftCmp (pyIn itemValue opv)
  else if op = "$between" then
    match opv with
    | Value.vlist [lo, hi] =>
        if itemValue.isNull then Except.ok false
        else
          match pyLe lo itemValue with
          | none => Except.error PyErr.typeErr
          | some false => Except.ok false
          | some true =>
              match pyLe itemValue hi with
              | none => Except.error PyErr.typeErr
              | some b => Except.ok b
    | _ => Except.ok false
  else if op = "$like" then
    if itemValue.isNull then Except.ok false
    else likeMatches (pyStr opv).toList (pyStr itemValue).toList
  else Except.ok true

/-- The operator loop with its `except (TypeError, ValueError)` handler:
a caught exception yields `return False`; `re.error` propagates. -/
def evalOps (itemValue : Value) : List (String × Value) → Except PyErr Bool
  | [] => Except.ok true
  | (op, opv) :: rest =>
      match evalOpRaw itemValue op opv with
      | Except.ok true => evalOps itemValue rest
      | Except.ok false => Except.ok false
      | Except.error e => if caught e then Except.ok false else Except.error e

/-- `matches_condition(item, key, value)` from `Indexer.query`. -/
def matchesCondition (item : Rec) (key : String) (v : QVal) : Except PyErr Bool :=
  let itemValue := getV item key
  match v with
  | QVal.lit w => Except.ok (pyEq itemValue w)
  | QVal.ops l => evalOps itemValue l

/-- `all(matches_condition(item, k, v) for k, v in conditions.items())`,
with Python's short-circuiting (a later condition is not evaluated once an
earlier one is false). -/
def recordMatches (item : Rec) : Query → Except PyErr Bool
  | [] => Except.ok true
  | (k, v) :: rest =>
      match matchesCondition item k v with
      | Except.ok true => recordMatches item rest
      | Except.ok false => Except.ok false
      | Except.error e => Except.error e

/-- The final list comprehension of `Indexer.query`, record by record. -/
def filterMatches (conds : Query) : List Rec → Except PyErr (List Rec)
  | [] => Except.ok []
  | r :: rs =>
      match recordMatches r conds with
      | Except.error e => Except.error e
      | Except.ok b =>
          match filterMatches conds rs with
          | Except.error e => Except.error e
          | Except.ok rest => Except.ok (if b then r :: rest else rest)

/-- `Indexer.query(conditions)`: empty conditions return the data unchanged,
otherwise the full linear scan. -/
def indexerQuery (conds : Query) (data : List Rec) : Except PyErr (List Rec) :=
  if conds.isEmpty then Except.ok data else filterMatches conds data

/-!
## SQL `LIKE` semantics as the specification words them

Used to compare the source's `$like` against the spec's description
(`%` = any run of characters, `_` = exactly one character, every other
character literal, case-insensitive).
-/

/-- `LIKE` matching exactly as the spec describes it, defined on the
pattern directly (no regex translation, no escaping question): `%` matches
any run of characters, `_` exactly one character, any other character
matches itself case-insensitively. -/
def specLike : List Char → List Char → Bool
  | [], s => s.isEmpty
  | c :: p', s =>
      if c = '%' then
        specLike p' s ||
          match s with
          | [] => false
          | _ :: s' => specLike (c :: p') s'
      else
        match s with
        | [] => false
        | x :: s' => (if c = '_' then true else ciEq c x) && specLike p' s'
termination_by p s => (s.length, p.length)

/-!
## `QueryCache` (`query_cache.py`)

The cache is an `OrderedDict`, modelled as a list of key/result pairs with
the head the oldest (least recently used) entry and the last element the
newest.  Keys are the `json.dumps(query, sort_keys=True)` strings.
-/

/-- Minimal JSON string escaping (backslash and double quote), enough for
`json.dumps` on the keys and strings the claims exercise. -/
def jsonEscape (s : String) : String :=
  String.mk (s.toList.flatMap fun c =>
    if c = '\\' ∨ c = '\"' then ['\\', c] else [c])

/-- `json.dumps` of a string. -/
def jsonQuote (s : String) : String := "\"" ++ jsonEscape s ++ "\""

mutual
/-- `json.dumps` of a value (default separators `", "` and `": "`). -/
def jsonV : Value → String
  | Value.vnull => "null"
  | Value.vint n => toString n
  | Value.vbool b => if b then "true" else "false"
  | Value.vstr s => jsonQuote s
  | Value.vlist xs => "[" ++ String.intercalate ", " (jsonVList xs) ++ "]"

/-- `json.dumps` of each element of a list. -/
def jsonVList : List Value → List String
  | [] => []
  | v :: vs => jsonV v :: jsonVList vs
end

/-- Sort dict items by key (`sort_keys=True`). -/
def sortByKey {α : Type} (l : List (String × α)) : List (String × α) :=
  l.mergeSort (fun a b => a.1 ≤ b.1)

/-- `json.dumps` of a string-keyed object with sorted keys; `\x7b`/`\x7d`
are the literal braces. -/
def jsonObj (entries : List (String × String)) : String :=
  "\x7b" ++ String.intercalate ", "
    (entries.map (fun p => jsonQuote p.1 ++ ": " ++ p.2)) ++ "\x7d"

/-- `json.dumps` of a query value: a literal, or a nested operator dict
(whose keys `sort_keys=True` also sorts). -/
def jsonQV : QVal → String
  | QVal.lit v => jsonV v
  | QVal.ops l => jsonObj ((sortByKey l).map (fun p => (p.1, jsonV p.2)))

/-- `QueryCache._make_key(query) = json.dumps(query, sort_keys=True)`. -/
def makeKey (q : Query) : String :=
  jsonObj ((sortByKey q).map (fun p => (p.1, jsonQV p.2)))

/-- The `QueryCache` state. -/
structure QCache where
  maxSize : Nat
  enabled : Bool
  cache : List (String × List Rec)
  hits : Nat
  misses : Nat
deriving Repr

/-- A fresh cache (`QueryCache.__init__`). -/
def QCache.init (maxSize : Nat) (enabled : Bool) : QCache :=
  { maxSize := maxSize, enabled := enabled, cache := [], hits := 0, misses := 0 }

/-- `OrderedDict.move_to_end(key)`: move the (unique) binding of `key` to
the most-recently-used end. -/
def moveToEnd (l : List (String × List Rec)) (key : String) : List (String × List Rec) :=
  match l.find? (fun p => p.1 = key) with
  | none => l
  | some e => l.eraseP (fun p => p.1 = key) ++ [e]

/-- `QueryCache.get`: on a hit promote to most-recently-used and count a
hit; on a miss count a miss. -/
def QCache.get (c : QCache) (q : Query) : Option (List Rec) × QCache :=
  if !c.enabled then (none, c)
  else
    let key := makeKey q
    match c.cache.find? (fun p => p.1 = key) with
    | some e =>
        (some e.2, { c with cache := moveToEnd c.cache key, hits := c.hits + 1 })
    | none => (none, { c with misses := c.misses + 1 })

/-- `QueryCache.set`: store under the normalized key at the MRU end
(`result.copy() if result else []` stores a list equal to `result`), then
evict the single LRU entry if the size now exceeds capacity. -/
def QCache.set (c : QCache) (q : Query) (result : List Rec) : QCache :=
  if !c.enabled then c
  else
    let key := makeKey q
    let cache1 := moveToEnd c.cache key
    let stored := if result.isEmpty then ([] : List Rec) else result
    let cache2 := cache1.eraseP (fun p => p.1 = key) ++ [(key, stored)]
    if c.maxSize < cache2.length then
      { c with cache := cache2.tail }
    else
      { c with cache := cache2 }

/-- `QueryCache.invalidate` / `clear`: drop all entries, keep counters. -/
def QCache.invalidate (c : QCache) : QCache := { c with cache := [] }

/-- `QueryCache.enable`. -/
def QCache.enable (c : QCache) : QCache := { c with enabled := true }

/-- `QueryCache.disable`: also clears the cache. -/
def QCache.disable (c : QCache) : QCache := { c with enabled := false, cache := [] }

/-- `QueryCache.reset_stats`. -/
def QCache.resetStats (c : QCache) : QCache := { c with hits := 0, misses := 0 }

/-- One cache API call, for stating invariants over arbitrary call
sequences. -/
inductive CacheOp where
  | get (q : Query)
  | set (q : Query) (result : List Rec)
  | invalidate
  | clear
  | enable
  | disable
  | resetStats

/-- Apply one cache operation. -/
def applyCacheOp (c : QCache) : CacheOp → QCache
  | CacheOp.get q => (c.get q).2
  | CacheOp.set q r => c.set q r
  | CacheOp.invalidate => c.invalidate
  | CacheOp.clear => c.invalidate
  | CacheOp.enable => c.enable
  | CacheOp.disable => c.disable
  | CacheOp.resetStats => c.resetStats

/-- Apply a sequence of cache operations in order. -/
def applyCacheOps (c : QCache) : List CacheOp → QCache
  | [] => c
  | op :: ops => applyCacheOps (applyCacheOp c op) ops

/-!
## `Storage.write` (`storage.py` lines 22–62) at the file level

The file system visible to one `Storage` instance: the target file, the WAL
file, and the transient temp file, each `none` when absent.  `write` is
modelled with an injected failure point covering the window between the WAL
write and the completion of the atomic rename; the `except` handler removes
the temp file and re-raises (a failure of the best-effort `os.unlink` itself
is outside this single-fault model).
-/

/-- Contents of the three files `Storage` touches. -/
structure FS where
  target : Option String
  wal : Option String
  temp : Option String
deriving Repr

/-- Where an injected fault strikes inside `Storage.write`. -/
inductive FailPoint where
  | noFail
  | atTempWrite
  | atRename
deriving DecidableEq, Repr

/-- `Storage.read`: the target's content, or `""` when the file is absent. -/
def storageRead (fs : FS) : String :=
  fs.target.getD ""

/-- `Storage.write(content)`: WAL first, then temp file, then atomic rename,
then WAL removal.  Returns the resulting file system and the propagated
error, if any. -/
def storageWrite (fs : FS) (content : String) (fp : FailPoint) : FS × Option String :=
  let fs1 := { fs with wal := some content }
  match fp with
  | FailPoint.atTempWrite =>
      ({ fs1 with temp := none }, some "temp write failed")
  | FailPoint.atRename =>
      ({ fs1 with temp := none }, some "rename failed")
  | FailPoint.noFail =>
      ({ target := some content, wal := none, temp := none }, none)

/-!
## `Database` state and `Database.load` (`database.py`)

At the `Database` level persistence is modelled one step above the byte
level: `file` holds the record list most recently saved (`save` encrypts and
calls `Storage.write`; the encryption is an external collaborator and drops
out of record-level statements).
-/

/-- The `Database` state relevant to the claims. -/
structure DB where
  data : List Rec
  cache : QCache
  file : Option (List Rec)
  version : Nat
deriving Repr

/-- `Database.save`: persist the current record list (and rebuild the query
engine, which carries no state we track). -/
def dbSave (db : DB) : DB :=
  { db with file := some db.data }

/-- `Database.load`, parameterized over the external decryption
collaborator (`Security.decrypt`), whose failure is any `Except.error`.
`fileExists`/`raw` reflect `os.path.exists` and `Storage.read`. -/
def dbLoad (fileExists : Bool) (raw : String)
    (decrypt : String → Except String (List Rec)) : Except String (List Rec) :=
  if !fileExists then Except.ok []
  else if raw = "" then Except.ok []
  else
    match decrypt raw with
    | Except.ok d => Except.ok d
    | Except.error _ => Except.error "Database file is corrupt or unreadable"

/-!
## `Database.delete` (`database.py` lines 109–115)

`delete` filters with `all(d[k] == v for k, v in query.items())` — a plain
subscript, so a missing key raises `KeyError`.  Python's `all` short-circuits:
once one comparison is false the remaining keys are not subscripted.
-/

/-- The generator `all(d[k] == v for k, v in query.items())` with Python's
evaluation order: `KeyError` on the first missing key actually reached. -/
def strictAll (d : Rec) : List (String × Value) → Except PyErr Bool
  | [] => Except.ok true
  | (k, v) :: rest =>
      match lookupV d k with
      | none => Except.error PyErr.keyErr
      | some w => if pyEq w v then strictAll d rest else Except.ok false

/-- The list comprehension of `Database.delete`, keeping the records that do
NOT fully match. -/
def strictFilterOut (q : List (String × Value)) : List Rec → Except PyErr (List Rec)
  | [] => Except.ok []
  | d :: ds =>
      match strictAll d q with
      | Except.error e => Except.error e
      | Except.ok b =>
          match strictFilterOut q ds with
          | Except.error e => Except.error e
          | Except.ok rest => Except.ok (if b then rest else d :: rest)

/-- `Database.delete(query)`.  The comprehension is evaluated before
`self.data` is reassigned, so on a raised error the record list, the cache
and the persisted file are all left as they were and the error propagates
(returned as `some e`). -/
def dbDelete (db : DB) (q : List (String × Value)) : DB × Option PyErr :=
  match strictFilterOut q db.data with
  | Except.error e => (db, some e)
  | Except.ok newData =>
      (dbSave { db with data := newData, cache := db.cache.invalidate }, none)

/-!
## `SchemaMigration` (`schema_migration.py`) and
`Database.migrate_schema` (`database.py` lines 173–208)

`SchemaMigration(self.data)` stores the database's own record list
(`self.data = data`, no copy), and every operation mutates the records in
place; so when the callback raises, the partially migrated state is what the
database is left holding.  A migration callback is modelled as a function
from the shared record list to the list as the callback leaves it, together
with `some error` when it raises.
-/

/-- A migration callback: the record list it leaves behind (the operations
mutate the shared list in place) and the error it raises, if any. -/
abbrev MigCallback := List Rec → List Rec × Option String

/-- `_resolve_default_value`, with the two non-deterministic sentinels
(`NOW()`, `UUID()`) supplied by the caller; `EMPTY_DICT()` falls outside the
modelled value fragment and is not needed by any claim. -/
def resolveDefault (nowStr uuidStr : String) (v : Value) : Value :=
  match v with
  | Value.vstr s =>
      if s = "NOW()" then Value.vstr nowStr
      else if s = "UUID()" then Value.vstr uuidStr
      else if s = "EMPTY_STRING()" then Value.vstr ""
      else if s = "ZERO()" then Value.vint 0
      else if s = "FALSE()" then Value.vbool false
      else if s = "EMPTY_LIST()" then Value.vlist []
      else v
  | _ => v

/-- `SchemaMigration.add_field`: set the field on every record that lacks
it; records already holding it are skipped with a warning. -/
def addField (name : String) (default : Value) (nowStr uuidStr : String)
    (data : List Rec) : List Rec × Option String :=
  if name = "" then (data, some "Field name cannot be empty")
  else
    (data.map (fun r =>
      if hasKey r name then r
      else r ++ [(name, resolveDefault nowStr uuidStr default)]), none)

/-- `SchemaMigration.remove_field`. -/
def removeField (name : String) (data : List Rec) : List Rec × Option String :=
  if name = "" then (data, some "Field name cannot be empty")
  else (data.map (fun r => delKey r name), none)

/-- The record loop of `rename_field`: records processed in order, each
rename mutating in place (`record[new] = record.pop(old)` appends `new` at
the end); a conflict raises mid-loop, leaving earlier records renamed. -/
def renameLoop (old new : String) : List Rec → List Rec × Option String
  | [] => ([], none)
  | r :: rs =>
      if hasKey r old then
        if hasKey r new then
          (r :: rs, some "rename conflict")
        else
          let r' := delKey r old ++ [(new, getV r old)]
          let (rs', e) := renameLoop old new rs
          (r' :: rs', e)
      else
        let (rs', e) := renameLoop old new rs
        (r :: rs', e)

/-- `SchemaMigration.rename_field`: argument checks happen before any
record is touched. -/
def renameField (old new : String) (data : List Rec) : List Rec × Option String :=
  if old = "" ∨ new = "" then (data, some "Field names cannot be empty")
  else if old = new then (data, some "Old and new field names must be different")
  else renameLoop old new data

/-- `SchemaMigration.set_default`: fill the field where missing or null. -/
def setDefault (name : String) (default : Value) (nowStr uuidStr : String)
    (data : List Rec) : List Rec × Option String :=
  if name = "" then (data, some "Field name cannot be empty")
  else
    (data.map (fun r =>
      if !hasKey r name || (lookupV r name).any Value.isNull then
        setKey r name (resolveDefault nowStr uuidStr default)
      else r), none)

/-- `Database.migrate_schema(callback, name)` exactly as the source has it:
no snapshot is taken and there is no `try`/`except`.  On a callback error
the exception propagates; the shared record list keeps every in-place edit
the callback made before raising; the version, cache and persisted file are
untouched.  On success the data is installed, the version incremented, the
cache invalidated and the store saved. -/
def migrateSchema (db : DB) (cb : MigCallback) : DB × Option String :=
  let (d', err) := cb db.data
  match err with
  | some e => ({ db with data := d' }, some e)
  | none =>
      (dbSave { db with data := d', version := db.version + 1,
                        cache := db.cache.invalidate }, none)

/-!
## `Transaction` (`transaction.py`)

The snapshot is `copy.deepcopy(database.data)` taken in `__init__`; with the
record lists modelled by value, a deep copy is the list itself.  Queued
operations touch only the snapshot; `commit` installs the snapshot
wholesale.  The external `Schema.validate` collaborator is a parameter: it
may mutate the record it is given (default filling) and may raise.
-/

/-- One entry of the transaction's operation log (introspection only). -/
inductive TxnLog where
  | ins (record : Rec)
  | upd (query : List (String × Value)) (updates : Rec) (affected : Nat)
  | del (query : List (String × Value)) (affected : Nat)

/-- Transaction state: private snapshot, operation log, and the
`_active` / `_committed` / `_rolled_back` flags. -/
structure Txn where
  snapshot : List Rec
  opsLog : List TxnLog
  active : Bool
  committed : Bool
  rolledBack : Bool

/-- `Transaction.__init__`: the deep-copied snapshot is taken here, before
the context is entered. -/
def txnInit (db : DB) : Txn :=
  { snapshot := db.data, opsLog := [], active := false,
    committed := false, rolledBack := false }

/-- `Transaction.__enter__`: only flips `_active`. -/
def txnEnter (t : Txn) : Txn := { t with active := true }

/-- The external `Schema.validate(record, snapshot)` collaborator: returns
the (possibly default-filled) record, or raises. -/
abbrev Validator := List Rec → Rec → Except String Rec

/-- `Transaction.insert`: state checks in source order, validation against
the snapshot, append to the snapshot, log.  The database itself is not
touched. -/
def txnInsert (vld : Validator) (db : DB) (t : Txn) (r : Rec) :
    Except String (DB × Txn) :=
  if t.committed then Except.error "Cannot insert: transaction already committed"
  else if t.rolledBack then Except.error "Cannot insert: transaction rolled back"
  else if !t.active then Except.error "Cannot insert: transaction not active"
  else
    match vld t.snapshot r with
    | Except.error e => Except.error e
    | Except.ok r' =>
        Except.ok (db, { t with snapshot := t.snapshot ++ [r'],
                                opsLog := t.opsLog ++ [TxnLog.ins r'] })

/-- The equality matching transactions use: `item.get(k) == v` for every
query pair (missing keys read as `None`; never raises). -/
def softMatch (item : Rec) (q : List (String × Value)) : Bool :=
  q.all (fun p => pyEq (getV item p.1) p.2)

/-- `Transaction.update`: patch every matching snapshot record in place. -/
def txnUpdate (db : DB) (t : Txn) (q : List (String × Value)) (u : Rec) :
    Except String (DB × Txn) :=
  if !t.active then Except.error "Cannot update: transaction not active"
  else if t.committed then Except.error "Cannot update: transaction already committed"
  else if t.rolledBack then Except.error "Cannot update: transaction rolled back"
  else
    let affected := (t.snapshot.filter (fun item => softMatch item q)).length
    Except.ok (db, { t with
      snapshot := t.snapshot.map (fun item =>
        if softMatch item q then dictUpdate item u else item),
      opsLog := t.opsLog ++ [TxnLog.upd q u affected] })

/-- `Transaction.delete`: drop every matching snapshot record.  Uses
`.get`, so a missing query field is a non-match, never an error. -/
def txnDelete (db : DB) (t : Txn) (q : List (String × Value)) :
    Except String (DB × Txn) :=
  if !t.active then Except.error "Cannot delete: transaction not active"
  else if t.committed then Except.error "Cannot delete: transaction already committed"
  else if t.rolledBack then Except.error "Cannot delete: transaction rolled back"
  else
    let remaining := t.snapshot.filter (fun d => !softMatch d q)
    let affected := t.snapshot.length - remaining.length
    Except.ok (db, { t with snapshot := remaining,
                            opsLog := t.opsLog ++ [TxnLog.del q affected] })

/-- `Transaction.commit`: install the snapshot as the live list, rebuild
the index, invalidate the cache, persist; flip the flags. -/
def txnCommit (db : DB) (t : Txn) : Except String (DB × Txn) :=
  if t.committed then Except.error "Transaction already committed"
  else if t.rolledBack then Except.error "Cannot commit: transaction was rolled back"
  else if !t.active then Except.error "Cannot commit: transaction not active"
  else
    Except.ok (dbSave { db with data := t.snapshot, cache := db.cache.invalidate },
      { t with committed := true, active := false })

/-- `Transaction.rollback`: discard the snapshot and the log; rolling back
twice is a warning no-op; rolling back after commit raises. -/
def txnRollback (db : DB) (t : Txn) : Except String (DB × Txn) :=
  if t.committed then Except.error "Cannot rollback: transaction already committed"
  else if t.rolledBack then Except.ok (db, t)
  else
    Except.ok (db, { t with snapshot := [], opsLog := [],
                            rolledBack := true, active := false })

/-- A queued transaction operation, for reasoning over sequences. -/
inductive TxnOp where
  | ins (r : Rec)
  | upd (q : List (String × Value)) (u : Rec)
  | del (q : List (String × Value))

/-- Apply one queued operation. -/
def applyTxnOp (vld : Validator) (st : DB × Txn) : TxnOp → Except String (DB × Txn)
  | TxnOp.ins r => txnInsert vld st.1 st.2 r
  | TxnOp.upd q u => txnUpdate st.1 st.2 q u
  | TxnOp.del q => txnDelete st.1 st.2 q

/-- Apply a sequence of queued operations in order. -/
def applyTxnOps (vld : Validator) (st : DB × Txn) : List TxnOp → Except String (DB × Txn)
  | [] => Except.ok st
  | op :: ops =>
      match applyTxnOp vld st op with
      | Except.error e => Except.error e
      | Except.ok st' => applyTxnOps vld st' ops

/-- The regex piece a single pattern character becomes. -/
def charPiece (c : Char) : RPiece :=
  if c = '%' then RPiece.star RAtom.dot
  else if c = '_' then RPiece.once RAtom.dot
  else RPiece.once (RAtom.lit c)

/-- The piece list of a whole pattern. -/
def piecesOf (p : List Char) : List RPiece := p.map charPiece

/-- Is this character free of regex meaning (and not a newline)? -/
def plainChar (c : Char) : Bool :=
  !(c = '\\' || c = '|' || c = '?' || c = '+' || c = '(' || c = ')' ||
    c = '[' || c = ']' || c = Char.ofNat 123 || c = Char.ofNat 125 ||
    c = '^' || c = '$' || c = '.' || c = '*' || c = '\n')

/-- A `$like` pattern built only from ordinary characters, `%` and `_`. -/
def plainLike (p : List Char) : Bool :=
  p.all (fun c => c = '%' || c = '_' || plainChar c)

/-- A subject string without newlines (where Python's `.`/`$` quirks are
invisible). -/
def noNewline (s : List Char) : Bool :=
  s.all (fun c => !(c = '\n'))

/-- Does an operator-expression avoid `$like`? -/
def qvalNoLike : QVal → Bool
  | QVal.lit _ => true
  | QVal.ops l => l.all (fun p => p.1 ≠ "$like")

/-- Does a whole query avoid `$like`? -/
def queryNoLike (conds : Query) : Bool :=
  conds.all (fun p => qvalNoLike p.2)

/-- The records queued for insertion by a sequence of operations. -/
def insertedRecs (ops : List TxnOp) : List Rec :=
  ops.filterMap (fun op =>
    match op with
    | TxnOp.ins r => some r
    | _ => none)

/-- Repeatedly `get` the same query. -/
def getIter (c : QCache) (q : Query) : Nat → QCache
  | 0 => c
  | n + 1 => getIter ((c.get q).2) q n

/-- A concrete two-entry cache at capacity, for the C8 witness. -/
def c8cache : QCache :=
  { maxSize := 2, enabled := true,
    cache := [(makeKey [("a", QVal.lit Value.vnull)], []),
              (makeKey [("b", QVal.lit Value.vnull)], [])],
    hits := 0, misses := 0 }

/-- C9 as stated is false: `delete` evaluates `d[k] == v` left to right with
short-circuiting, so a record that MISMATCHES an earlier query field is
treated as a non-match and the missing later field `"b"` is never
subscripted — no `KeyError` is raised even though a record lacks a queried
field. -/
def c9db : DB :=
  { data := [[("a", Value.vint 1)]], cache := QCache.init 100 true,
    file := some [[("a", Value.vint 1)]], version := 0 }

/-!
# Theorems

## C1 — `migrate_schema` rollback
-/

/-- The record used in the C1 failing input. -/
def aliceRec : Rec := [("id", Value.vint 1), ("name", Value.vstr "Alice")]

/-- The failing migration of the repository's own
`test_rollback_on_migration_error`: one successful `add_field`, then a
raised error. -/
def failingCb : MigCallback := fun d =>
  let p := addField "status" (Value.vstr "active") "2026-01-01T00:00:00" "uid-1" d
  match p.2 with
  | some e => (p.1, some e)
  | none => (p.1, some "Simulated migration error")

/-- The C1 database: one record, schema version 0, persisted. -/
def c1db : DB :=
  { data := [aliceRec], cache := QCache.init 100 true,
    file := some [aliceRec], version := 0 }

/-- C1: the claim (and the repository's own rollback tests) require
`migrate_schema` to restore the pre-migration record list when the callback
raises.  The source has no snapshot and no `try`/`except`: the error is
re-raised and the version/file are untouched, but the partial in-place edit
(`status` added to the record) REMAINS in the live record list — it is not
rolled back. -/
theorem migrateSchema_partial_edits_kept_on_error :
    (migrateSchema c1db failingCb).2 = some "Simulated migration error" ∧
    (migrateSchema c1db failingCb).1.version = 0 ∧
    (migrateSchema c1db failingCb).1.file = some [aliceRec] ∧
    (migrateSchema c1db failingCb).1.data =
      [aliceRec ++ [("status", Value.vstr "active")]] ∧
    (migrateSchema c1db failingCb).1.data.map (fun r => hasKey r "status") = [true] ∧
    c1db.data.map (fun r => hasKey r "status") = [false] :=
  ⟨rfl, rfl, rfl, rfl, rfl, rfl⟩

/-!
## C3 — the `$like` translation

Infrastructure: the pieces a plain pattern compiles to, and the equivalence
between the code's translated-regex search and the spec's direct SQL-LIKE
semantics on patterns free of regex metacharacters.
-/

/-- `parseAux` consumes its input left to right: parsing a concatenation
continues from the accumulator the first part produced. -/
theorem parseAux_append :
    ∀ (xs ys : List Char) (acc : List RPiece),
      parseAux (xs ++ ys) acc =
        match parseAux xs acc with
        | Except.ok acc' => parseAux ys acc'
        | Except.error e => Except.error e := by
  intro xs
  induction xs with
  | nil => intro ys acc; rfl
  | cons c xs ih =>
      intro ys acc
      simp only [List.cons_append, parseAux]
      by_cases h1 : c = '*'
      · rw [if_pos h1, if_pos h1]
        cases acc with
        | nil => rfl
        | cons pc acc' =>
            cases pc with
            | once a => exact ih ys (RPiece.star a :: acc')
            | star a => rfl
      · rw [if_neg h1, if_neg h1]
        by_cases h2 : c = '.'
        · rw [if_pos h2, if_pos h2]
          exact ih ys _
        · rw [if_neg h2, if_neg h2]
          by_cases h3 : c ∈ badRegexChars
          · rw [if_pos h3, if_pos h3]
          · rw [if_neg h3, if_neg h3]
            exact ih ys _

/-- Parsing the translation of one allowed pattern character pushes exactly
its piece. -/
theorem parseAux_likeChar (c : Char)
    (h : c = '%' ∨ c = '_' ∨ plainChar c = true) (acc : List RPiece) :
    parseAux (likeChar c) acc = Except.ok (charPiece c :: acc) := by
  by_cases h1 : c = '%'
  · subst h1; rfl
  by_cases h2 : c = '_'
  · subst h2; rfl
  have hp : plainChar c = true := by
    rcases h with h | h | h
    · exact absurd h h1
    · exact absurd h h2
    · exact h
  simp only [plainChar, Bool.not_eq_true', Bool.or_eq_false_iff,
    decide_eq_false_iff_not, and_assoc] at hp
  obtain ⟨hbs, hbar, hq, hpl, hlp, hrp, hlb, hrb, hlc, hrc, hcar, hdol,
    hdot, hast, hnl⟩ := hp
  have hmem : ¬(c ∈ badRegexChars) := by
    simp only [badRegexChars, List.mem_cons, List.not_mem_nil, or_false]
    intro hor
    rcases hor with h | h | h | h | h | h | h | h | h | h | h | h
    exacts [hbs h, hbar h, hq h, hpl h, hlp h, hrp h, hlb h, hrb h,
      hlc h, hrc h, hcar h, hdol h]
  simp only [likeChar, if_neg h1, if_neg h2, parseAux, charPiece]
  rw [if_neg hast, if_neg hdot, if_neg hmem]

/-- Parsing the translation of a plain pattern yields exactly its pieces
(accumulated in reverse). -/
theorem parseAux_likeCore :
    ∀ (p : List Char), plainLike p = true → ∀ acc,
      parseAux (likeCore p) acc = Except.ok ((piecesOf p).reverse ++ acc) := by
  intro p
  induction p with
  | nil => intro _ acc; rfl
  | cons c p' ih =>
      intro hp acc
      simp only [plainLike, List.all_cons, Bool.and_eq_true] at hp
      obtain ⟨hc, hrest⟩ := hp
      simp only [likeCore, parseAux_append, parseAux_likeChar c (by
        rcases Bool.or_eq_true .. |>.mp hc with h | h
        · rcases Bool.or_eq_true .. |>.mp h with h' | h'
          · exact Or.inl (by simpa using h')
          · exact Or.inr (Or.inl (by simpa using h'))
        · exact Or.inr (Or.inr h))]
      rw [ih (by simpa [plainLike] using hrest) (charPiece c :: acc)]
      simp [piecesOf]

/-- `likeChar` never produces the empty string. -/
theorem likeChar_ne_nil (c : Char) : likeChar c ≠ [] := by
  unfold likeChar
  split_ifs <;> simp

/-- The translation of a nonempty pattern is nonempty. -/
theorem likeCore_ne_nil (c : Char) (p : List Char) : likeCore (c :: p) ≠ [] := by
  simp only [likeCore]
  intro h
  exact likeChar_ne_nil c (List.append_eq_nil.mp h).1

/-- `likeCore` is a homomorphism for append. -/
theorem likeCore_append :
    ∀ (p q : List Char), likeCore (p ++ q) = likeCore p ++ likeCore q := by
  intro p q
  induction p with
  | nil => rfl
  | cons c p' ih => simp [likeCore, ih]

/-- A pattern ending in `%` translates to a string ending in `*`. -/
theorem likeCore_getLast_pct (p' : List Char) :
    (likeCore (p' ++ ['%'])).getLast? = some '*' := by
  rw [likeCore_append]
  have h2 : likeCore ['%'] = ['.', '*'] := rfl
  rw [h2, show likeCore p' ++ ['.', '*'] = (likeCore p' ++ ['.']) ++ ['*'] by simp]
  exact List.getLast?_concat _

/-- `stripCaret` on a string not starting with `^`. -/
theorem stripCaret_none {cs : List Char} (h : cs.head? ≠ some '^') :
    stripCaret cs = (false, cs) := by
  cases cs with
  | nil => rfl
  | cons c rest =>
      show (if c = '^' then ((true : Bool), rest) else ((false : Bool), c :: rest)) =
        (false, c :: rest)
      rw [if_neg (by simpa using h)]

/-- `stripCaret` on a string starting with `^`. -/
theorem stripCaret_caret (rest : List Char) :
    stripCaret ('^' :: rest) = (true, rest) := rfl

/-- `stripDollar` on a string ending in `$`. -/
theorem stripDollar_dollar (cs : List Char) :
    stripDollar (cs ++ ['$']) = (true, cs) := by
  unfold stripDollar
  rw [if_pos (List.getLast?_concat cs), List.dropLast_concat]

/-- `stripDollar` on a string not ending in `$`. -/
theorem stripDollar_none {cs : List Char} (h : cs.getLast? ≠ some '$') :
    stripDollar cs = (false, cs) := by
  unfold stripDollar
  rw [if_neg h]

/-- The translation of a `%`-led pattern starts with `.`. -/
theorem likeCore_pct (p'' : List Char) :
    likeCore ('%' :: p'') = '.' :: '*' :: likeCore p'' := rfl

/-- Assemble a `parseRegex` run from its three stages. -/
theorem parseRegex_parts (cs : List Char) (aS : Bool) (cs1 : List Char)
    (aE : Bool) (cs2 : List Char) (ps : List RPiece)
    (h1 : stripCaret cs = (aS, cs1)) (h2 : stripDollar cs1 = (aE, cs2))
    (h3 : parseAux cs2 [] = Except.ok ps) :
    parseRegex cs = Except.ok (aS, aE, ps.reverse) := by
  unfold parseRegex
  simp only [h1, h2, h3]

/-- Parsing the full translation of a plain pattern: the anchors are added
exactly when the pattern does not start/end with `%`, and the body parses
to its pieces. -/
theorem parseRegex_likeTranslate (p : List Char) (hp : plainLike p = true) :
    parseRegex (likeTranslate p) =
      Except.ok (!(p.head? = some '%' : Bool), !(p.getLast? = some '%' : Bool),
        piecesOf p) := by
  have hbody : parseAux (likeCore p) [] =
      Except.ok ((piecesOf p).reverse ++ []) := parseAux_likeCore p hp []
  rw [List.append_nil] at hbody
  simp only [likeTranslate]
  by_cases hS : p.head? = some '%'
  · obtain ⟨c, p'', hpc⟩ : ∃ c p'', p = c :: p'' := by
      cases p with
      | nil => cases hS
      | cons c p'' => exact ⟨c, p'', rfl⟩
    have hc : c = '%' := by rw [hpc] at hS; simpa using hS
    have hhead : (likeCore p).head? = some '.' := by
      rw [hpc, hc, likeCore_pct]; rfl
    rw [if_pos hS]
    by_cases hE : p.getLast? = some '%'
    · rw [if_pos hE]
      obtain ⟨p1, hp1⟩ := List.getLast?_eq_some_iff.mp hE
      have hlast : (likeCore p).getLast? = some '*' := by
        rw [hp1]; exact likeCore_getLast_pct p1
      rw [parseRegex_parts (likeCore p) false (likeCore p) false (likeCore p)
        ((piecesOf p).reverse)
        (stripCaret_none (by rw [hhead]; simp))
        (stripDollar_none (by rw [hlast]; simp)) hbody]
      simp [hS, hE]
    · rw [if_neg hE]
      rw [parseRegex_parts (likeCore p ++ ['$']) false (likeCore p ++ ['$'])
        true (likeCore p) ((piecesOf p).reverse)
        (stripCaret_none (by
          rw [show (likeCore p ++ ['$']).head? = some '.' by
            rw [hpc, hc, likeCore_pct]; rfl]
          simp))
        (stripDollar_dollar (likeCore p)) hbody]
      simp [hS, hE]
  · rw [if_neg hS]
    by_cases hE : p.getLast? = some '%'
    · rw [if_pos hE]
      obtain ⟨p1, hp1⟩ := List.getLast?_eq_some_iff.mp hE
      have hlast : (likeCore p).getLast? = some '*' := by
        rw [hp1]; exact likeCore_getLast_pct p1
      rw [parseRegex_parts ('^' :: likeCore p) true (likeCore p) false
        (likeCore p) ((piecesOf p).reverse)
        (stripCaret_caret (likeCore p))
        (stripDollar_none (by rw [hlast]; simp)) hbody]
      simp [hS, hE]
    · rw [if_neg hE]
      rw [show ('^' :: likeCore p) ++ ['$'] = '^' :: (likeCore p ++ ['$'])
        from rfl]
      rw [parseRegex_parts ('^' :: (likeCore p ++ ['$'])) true
        (likeCore p ++ ['$']) true (likeCore p) ((piecesOf p).reverse)
        (stripCaret_caret (likeCore p ++ ['$']))
        (stripDollar_dollar (likeCore p)) hbody]
      simp [hS, hE]

/-- Unanchored search equals matching with a leading `.*`, on
newline-free input. -/
theorem rsearch_eq_rmatch_star (ps : List RPiece) (e : Bool) :
    ∀ s : List Char, noNewline s = true →
      rsearch ps s e = rmatch (RPiece.star RAtom.dot :: ps) s e := by
  intro s
  induction s with
  | nil =>
      intro _
      simp only [rsearch, rmatch.eq_4]
  | cons c s' ih =>
      intro hs
      simp only [noNewline, List.all_cons, Bool.and_eq_true,
        Bool.not_eq_true', decide_eq_false_iff_not] at hs
      obtain ⟨hc, hs'⟩ := hs
      have hdot : atomM RAtom.dot c = true := by simp [atomM, dotM, hc]
      simp only [rsearch, rmatch.eq_5, hdot, Bool.true_and]
      rw [ih (by simpa [noNewline] using hs')]

/-- A doubled `.*` is one `.*`. -/
theorem rmatch_star_star (ps : List RPiece) (e : Bool) :
    ∀ s, rmatch (RPiece.star RAtom.dot :: RPiece.star RAtom.dot :: ps) s e =
      rmatch (RPiece.star RAtom.dot :: ps) s e := by
  intro s
  induction s with
  | nil => simp only [rmatch.eq_4, Bool.or_false]
  | cons c s' ih =>
      simp only [rmatch.eq_5]
      rw [ih, Bool.or_assoc, Bool.or_self]

/-- A sole `.*` matches any newline-free input, with or without the end
anchor. -/
theorem rmatch_starDot_all (e : Bool) :
    ∀ s : List Char, noNewline s = true →
      rmatch [RPiece.star RAtom.dot] s e = true := by
  intro s
  induction s with
  | nil =>
      intro _
      cases e <;> simp [rmatch.eq_4, rmatch.eq_1, atEnd]
  | cons c s' ih =>
      intro hs
      simp only [noNewline, List.all_cons, Bool.and_eq_true,
        Bool.not_eq_true', decide_eq_false_iff_not] at hs
      obtain ⟨hc, hs'⟩ := hs
      have hdot : atomM RAtom.dot c = true := by simp [atomM, dotM, hc]
      simp only [rmatch.eq_5, hdot, Bool.true_and]
      rw [ih (by simpa [noNewline] using hs')]
      simp

/-- With a trailing `.*`, the end anchor is invisible on newline-free
input. -/
theorem rmatch_trailing_star :
    ∀ (n : Nat) (qs : List RPiece) (s : List Char),
      qs.length + s.length ≤ n → noNewline s = true →
      rmatch (qs ++ [RPiece.star RAtom.dot]) s false =
        rmatch (qs ++ [RPiece.star RAtom.dot]) s true := by
  intro n
  induction n with
  | zero =>
      intro qs s hlen _
      have hq : qs = [] := by
        cases qs <;> simp at hlen <;> rfl
      have hs0 : s = [] := by
        cases s
        · rfl
        · rw [hq] at hlen; simp at hlen
      subst hq; subst hs0
      simp [rmatch.eq_4, rmatch.eq_1, atEnd]
  | succ n ih =>
      intro qs s hlen hs
      cases qs with
      | nil =>
          rw [List.nil_append]
          rw [rmatch_starDot_all false s hs, rmatch_starDot_all true s hs]
      | cons q qs' =>
          cases q with
          | once a =>
              cases s with
              | nil => simp only [List.cons_append, rmatch.eq_2]
              | cons c s' =>
                  simp only [List.cons_append, rmatch.eq_3]
                  rw [ih qs' s' (by simp at hlen ⊢; omega)
                    (by simp [noNewline] at hs ⊢; exact hs.2)]
          | star a =>
              cases s with
              | nil =>
                  simp only [List.cons_append, rmatch.eq_4]
                  rw [ih qs' [] (by simp at hlen ⊢; omega) rfl]
              | cons c s' =>
                  simp only [List.cons_append, rmatch.eq_5]
                  rw [ih qs' (c :: s') (by simp at hlen ⊢; omega) hs]
                  rw [← List.cons_append]
                  rw [ih (RPiece.star a :: qs') s' (by simp at hlen ⊢; omega)
                    (by simp [noNewline] at hs ⊢; exact hs.2)]

/-- Core equivalence: full anchored matching of a pattern's pieces equals
the spec's direct SQL-LIKE semantics, on newline-free input. -/
theorem rmatch_pieces_eq_specLike :
    ∀ (n : Nat) (p s : List Char), p.length + s.length ≤ n →
      noNewline s = true →
      rmatch (piecesOf p) s true = specLike p s := by
  intro n
  induction n with
  | zero =>
      intro p s hlen _
      have hp : p = [] := by cases p <;> simp at hlen <;> rfl
      have hs0 : s = [] := by
        cases s
        · rfl
        · rw [hp] at hlen; simp at hlen
      subst hp; subst hs0
      simp [piecesOf, rmatch.eq_1, atEnd, specLike.eq_1]
  | succ n ih =>
      intro p s hlen hs
      cases p with
      | nil =>
          simp only [piecesOf, List.map_nil, rmatch.eq_1, if_pos rfl]
          cases s with
          | nil => simp [atEnd, specLike.eq_1]
          | cons c s' =>
              cases s' with
              | nil =>
                  simp only [noNewline, List.all_cons, List.all_nil,
                    Bool.and_true, Bool.not_eq_true',
                    decide_eq_false_iff_not] at hs
                  simp [atEnd, specLike.eq_1, hs]
              | cons d s'' => simp [atEnd, specLike.eq_1]
      | cons c p' =>
          by_cases hcp : c = '%'
          · subst hcp
            have hpc : piecesOf ('%' :: p') =
                RPiece.star RAtom.dot :: piecesOf p' := rfl
            rw [hpc]
            cases s with
            | nil =>
                rw [rmatch.eq_4]
                rw [specLike.eq_2, if_pos rfl]
                rw [ih p' [] (by simp at hlen ⊢; omega) rfl]
            | cons x s' =>
                rw [rmatch.eq_5]
                rw [specLike.eq_3, if_pos rfl]
                have hsx : ¬x = '\n' ∧ noNewline s' = true := by
                  simp [noNewline] at hs ⊢; exact hs
                have hdot : atomM RAtom.dot x = true := by
                  simp [atomM, dotM, hsx.1]
                rw [hdot, Bool.true_and]
                rw [ih p' (x :: s') (by simp at hlen ⊢; omega) hs]
                rw [← hpc, ih ('%' :: p') s' (by simp at hlen ⊢; omega) hsx.2]
          · have hpc : piecesOf (c :: p') =
                RPiece.once (if c = '_' then RAtom.dot else RAtom.lit c) ::
                  piecesOf p' := by
              by_cases hcu : c = '_' <;> simp [piecesOf, charPiece, hcp, hcu]
            rw [hpc]
            cases s with
            | nil =>
                rw [rmatch.eq_2]
                rw [specLike.eq_2, if_neg hcp]
            | cons x s' =>
                rw [rmatch.eq_3]
                rw [specLike.eq_3, if_neg hcp]
                have hsx : ¬x = '\n' ∧ noNewline s' = true := by
                  simp [noNewline] at hs ⊢; exact hs
                rw [ih p' s' (by simp at hlen ⊢; omega) hsx.2]
                by_cases hcu : c = '_'
                · simp [hcu, atomM, dotM, hsx.1]
                · simp [hcu, atomM]

/-- The `$like` test the code performs coincides with the spec's SQL-LIKE
semantics whenever the pattern is free of regex metacharacters and the
subject has no newline. -/
theorem likeMatches_eq_specLike (p s : List Char)
    (hp : plainLike p = true) (hs : noNewline s = true) :
    likeMatches p s = Except.ok (specLike p s) := by
  unfold likeMatches regexSearch
  rw [parseRegex_likeTranslate p hp]
  have hfull : rmatch (piecesOf p) s true = specLike p s :=
    rmatch_pieces_eq_specLike (p.length + s.length) p s (le_refl _) hs
  have hmain : ∀ e : Bool,
      (p.getLast? = some '%' → e = false) →
      (p.getLast? ≠ some '%' → e = true) →
      rmatch (piecesOf p) s e = specLike p s := by
    intro e he1 he2
    by_cases hE : p.getLast? = some '%'
    · rw [he1 hE]
      obtain ⟨p1, hp1⟩ := List.getLast?_eq_some_iff.mp hE
      have hdec : piecesOf p = piecesOf p1 ++ [RPiece.star RAtom.dot] := by
        rw [hp1]; simp [piecesOf, charPiece]
      rw [hdec, rmatch_trailing_star ((piecesOf p1).length + s.length)
        (piecesOf p1) s (le_refl _) hs, ← hdec]
      exact hfull
    · rw [he2 hE]
      exact hfull
  by_cases hS : p.head? = some '%'
  · obtain ⟨c, p'', hpc⟩ : ∃ c p'', p = c :: p'' := by
      cases p with
      | nil => cases hS
      | cons c p'' => exact ⟨c, p'', rfl⟩
    have hc : c = '%' := by rw [hpc] at hS; simpa using hS
    have hsd : piecesOf p = RPiece.star RAtom.dot :: piecesOf p'' := by
      rw [hpc, hc]; rfl
    simp only [hS, decide_True, Bool.not_true, Bool.false_eq_true, if_false]
    rw [rsearch_eq_rmatch_star _ _ s hs, hsd, rmatch_star_star, ← hsd]
    by_cases hE : p.getLast? = some '%'
    · simp only [hE, decide_True, Bool.not_true]
      rw [hmain false (fun _ => rfl) (fun h => absurd hE h)]
    · simp only [hE, decide_False, Bool.not_false]
      rw [hmain true (fun h => absurd h hE) (fun _ => rfl)]
  · simp only [hS, decide_False, Bool.not_false, if_true]
    by_cases hE : p.getLast? = some '%'
    · simp only [hE, decide_True, Bool.not_true]
      rw [hmain false (fun _ => rfl) (fun h => absurd hE h)]
    · simp only [hE, decide_False, Bool.not_false]
      rw [hmain true (fun h => absurd h hE) (fun _ => rfl)]

unseal rmatch specLike in
/-- C3 counterexample: the claim says regex metacharacters in a `$like`
pattern are escaped, so `"a.c"` should match only the literal text
`"a.c"`.  The code does not escape: the translated regex `^a.c$` matches
`"abc"`, while the spec's SQL-LIKE semantics rejects it. -/
theorem like_metachar_not_escaped_cex :
    likeMatches "a.c".toList "abc".toList = Except.ok true ∧
    specLike "a.c".toList "abc".toList = false ∧
    matchesCondition [("name", Value.vstr "abc")] "name"
      (QVal.ops [("$like", Value.vstr "a.c")]) = Except.ok true :=
  ⟨rfl, rfl, rfl⟩

/-- C3 amended: the `$like` pattern is translated with `%→.*`, `_→.` and
the `^`/`$` anchors exactly as claimed, matched case-insensitively, and a
null value never matches — but regex metacharacters are NOT escaped (they
keep their regex meaning, see the counterexample).  Consequently, for every
pattern built only of ordinary characters, `%` and `_`, and every
newline-free value, the code's `$like` equals the spec's SQL-LIKE
semantics. -/
theorem like_plain_pattern_matches_sql_like (p s : String)
    (hp : plainLike p.toList = true) (hs : noNewline s.toList = true) :
    likeMatches p.toList s.toList = Except.ok (specLike p.toList s.toList) ∧
    (∀ pat : Value, evalOpRaw Value.vnull "$like" pat = Except.ok false) :=
  ⟨likeMatches_eq_specLike p.toList s.toList hp hs, fun _ => rfl⟩

unseal rmatch specLike in
/-- C3 witness: on the plain pattern `A%` and value `Alice` the code and
the SQL-LIKE semantics agree (both match). -/
theorem like_plain_pattern_matches_sql_like_witness :
    likeMatches "A%".toList "Alice".toList =
      Except.ok (specLike "A%".toList "Alice".toList) ∧
    specLike "A%".toList "Alice".toList = true :=
  ⟨(like_plain_pattern_matches_sql_like "A%" "Alice" (by decide) (by decide)).1,
    rfl⟩

/-!
## C4 — malformed queries and exceptions
-/

/-- An error coming through `liftCmp` is a `TypeError`. -/
theorem liftCmp_error {o : Option Bool} {e : PyErr}
    (h : liftCmp o = Except.error e) : e = PyErr.typeErr := by
  cases o with
  | none => unfold liftCmp at h; injection h with h'; exact h'.symm
  | some b => unfold liftCmp at h; cases h

/-- Away from `$like`, every error the operator branches raise is a
`TypeError`/`ValueError`, which the handler catches. -/
theorem evalOpRaw_caught (itemValue : Value) (op : String) (opv : Value)
    (hop : op ≠ "$like") :
    ∀ e, evalOpRaw itemValue op opv = Except.error e → caught e = true := by
  intro e h
  unfold evalOpRaw at h
  by_cases h1 : (itemValue.isNull && opNullOrd op) = true
  · rw [if_pos h1] at h; cases h
  rw [if_neg h1] at h
  by_cases h2 : op = "$gt"
  · rw [if_pos h2] at h; rw [liftCmp_error h]; rfl
  rw [if_neg h2] at h
  by_cases h3 : op = "$lt"
  · rw [if_pos h3] at h; rw [liftCmp_error h]; rfl
  rw [if_neg h3] at h
  by_cases h4 : op = "$gte"
  · rw [if_pos h4] at h; rw [liftCmp_error h]; rfl
  rw [if_neg h4] at h
  by_cases h5 : op = "$lte"
  · rw [if_pos h5] at h; rw [liftCmp_error h]; rfl
  rw [if_neg h5] at h
  by_cases h6 : op = "$ne"
  · rw [if_pos h6] at h; cases h
  rw [if_neg h6] at h
  by_cases h7 : op = "$in"
  · rw [if_pos h7] at h; rw [liftCmp_error h]; rfl
  rw [if_neg h7] at h
  by_cases h8 : op = "$between"
  · rw [if_pos h8] at h
    revert h
    rcases opv with _ | n | b | s | (_ | ⟨lo, _ | ⟨hi, _ | ⟨x3, xs⟩⟩⟩) <;> intro h
    · cases h
    · cases h
    · cases h
    · cases h
    · cases h
    · cases h
    · simp only [] at h
      by_cases hn : itemValue.isNull = true
      · rw [if_pos hn] at h; cases h
      rw [if_neg hn] at h
      rcases hc : pyLe lo itemValue with _ | b1 <;> rw [hc] at h
      · injection h with h'; rw [← h']; rfl
      · rcases b1 with _ | _
        · cases h
        · rcases hc2 : pyLe itemValue hi with _ | b2 <;> rw [hc2] at h
          · injection h with h'; rw [← h']; rfl
          · cases h
    · cases h
  rw [if_neg h8] at h
  by_cases h9 : op = "$like"
  · exact absurd h9 hop
  rw [if_neg h9] at h
  cases h

/-- A `$like`-free operator loop never raises. -/
theorem evalOps_noLike_ok (itemValue : Value) :
    ∀ l : List (String × Value), l.all (fun p => p.1 ≠ "$like") = true →
      isOkE (evalOps itemValue l) = true := by
  intro l
  induction l with
  | nil => intro _; rfl
  | cons p rest ih =>
      intro hl
      simp only [List.all_cons, Bool.and_eq_true] at hl
      obtain ⟨hp, hrest⟩ := hl
      obtain ⟨op, opv⟩ := p
      simp only [evalOps]
      rcases hr : evalOpRaw itemValue op opv with e | b
      · have hc := evalOpRaw_caught itemValue op opv (by simpa using hp) e hr
        show isOkE (if caught e = true then Except.ok false else Except.error e) = true
        rw [hc]
        rfl
      · cases b
        · rfl
        · exact ih hrest

/-- A `$like`-free query evaluates without raising on every record list. -/
theorem indexerQuery_noLike_ok (conds : Query) (data : List Rec)
    (h : queryNoLike conds = true) :
    isOkE (indexerQuery conds data) = true := by
  have hrec : ∀ (cs : Query), queryNoLike cs = true →
      ∀ r : Rec, isOkE (recordMatches r cs) = true := by
    intro cs
    induction cs with
    | nil => intro _ r; rfl
    | cons p rest ih =>
        intro hcs r
        simp only [queryNoLike, List.all_cons, Bool.and_eq_true] at hcs
        obtain ⟨hp, hrest⟩ := hcs
        obtain ⟨k, v⟩ := p
        simp only [recordMatches]
        rcases hm : matchesCondition r k v with e | b
        · exfalso
          rcases v with w | l
          · simp [matchesCondition] at hm
          · have hok := evalOps_noLike_ok (getV r k) l (by simpa [qvalNoLike] using hp)
            rw [show evalOps (getV r k) l = Except.error e from hm] at hok
            simp [isOkE] at hok
        · cases b
          · rfl
          · exact ih (by simpa [queryNoLike] using hrest) r
  unfold indexerQuery
  split
  · rfl
  · induction data with
    | nil => rfl
    | cons r rs ih =>
        simp only [filterMatches]
        rcases hm : recordMatches r conds with e | b
        · have hko := hrec conds h r; rw [hm] at hko; simp [isOkE] at hko
        · rcases hf : filterMatches conds rs with e | l
          · rw [hf] at ih; simp [isOkE] at ih
          · rfl

/-- C4 counterexample: the claim says a malformed condition never raises,
but a `$like` operand that compiles to an invalid regular expression —
here the pattern `"("` — raises `re.error`, which the
`except (TypeError, ValueError)` handler does not catch. -/
theorem query_like_invalid_regex_raises_cex :
    indexerQuery [("name", QVal.ops [("$like", Value.vstr "(")])]
      [[("name", Value.vstr "x")]] = Except.error PyErr.reErr ∧
    caught PyErr.reErr = false :=
  ⟨rfl, rfl⟩

/-- C4 amended: for every query that contains no `$like` operator (and any
record list), evaluation never raises — a wrong-arity `$between` and a
type-incompatible comparison are non-matches, shown on the concrete inputs
below; only `$like` can raise, through an invalid translated regex. -/
theorem query_no_like_never_raises (conds : Query) (data : List Rec)
    (h : queryNoLike conds = true) :
    isOkE (indexerQuery conds data) = true ∧
    indexerQuery [("age", QVal.ops [("$between", Value.vlist [Value.vint 20])])]
      [[("age", Value.vint 25)]] = Except.ok [] ∧
    indexerQuery [("age", QVal.ops [("$gt", Value.vstr "x")])]
      [[("age", Value.vint 25)]] = Except.ok [] :=
  ⟨indexerQuery_noLike_ok conds data h, rfl, rfl⟩

/-- C4 witness: a query mixing a malformed `$between`, a type-incompatible
`$gt` and an `$in` over a non-iterable evaluates without raising. -/
theorem query_no_like_never_raises_witness :
    isOkE (indexerQuery
      [("age", QVal.ops [("$between", Value.vlist [Value.vint 20]),
                         ("$gt", Value.vstr "x"),
                         ("$in", Value.vint 3)])]
      [[("age", Value.vint 25)], [("name", Value.vstr "z")]]) = true :=
  (query_no_like_never_raises
    [("age", QVal.ops [("$between", Value.vlist [Value.vint 20]),
                       ("$gt", Value.vstr "x"),
                       ("$in", Value.vint 3)])]
    [[("age", Value.vint 25)], [("name", Value.vstr "z")]] (by decide)).1

/-!
## C5 — `Storage.write` failure between temp write and rename
-/

/-- C5: if `write(content)` fails between writing the temp file and the
atomic rename, the temp file is removed, the error propagates, the WAL
still holds the staged content, the target still holds the prior committed
content `C`, and a subsequent `read()` returns `C`. -/
theorem storageWrite_fail_preserves_prior_state
    (fs : FS) (C content : String) (fp : FailPoint)
    (hT : fs.target = some C)
    (hf : fp = FailPoint.atTempWrite ∨ fp = FailPoint.atRename) :
    ((storageWrite fs content fp).2).isSome = true ∧
    (storageWrite fs content fp).1.temp = none ∧
    (storageWrite fs content fp).1.wal = some content ∧
    (storageWrite fs content fp).1.target = some C ∧
    storageRead (storageWrite fs content fp).1 = C := by
  rcases hf with h | h <;> subst h <;> simp [storageWrite, storageRead, hT]

/-- C5 witness: a concrete failed write over committed content. -/
theorem storageWrite_fail_preserves_prior_state_witness :
    ((storageWrite ⟨some "old", none, none⟩ "new" FailPoint.atRename).2).isSome = true ∧
    (storageWrite ⟨some "old", none, none⟩ "new" FailPoint.atRename).1.temp = none ∧
    (storageWrite ⟨some "old", none, none⟩ "new" FailPoint.atRename).1.wal = some "new" ∧
    (storageWrite ⟨some "old", none, none⟩ "new" FailPoint.atRename).1.target = some "old" ∧
    storageRead (storageWrite ⟨some "old", none, none⟩ "new" FailPoint.atRename).1 = "old" :=
  storageWrite_fail_preserves_prior_state ⟨some "old", none, none⟩ "old" "new"
    FailPoint.atRename rfl (Or.inr rfl)

/-!
## C6 — `Database.load`
-/

/-- C6: `load()` returns an empty record list when the file is absent or
its content is empty; when the non-empty content fails to decrypt it raises
the corruption `RuntimeError` (and in particular does not return an empty
store). -/
theorem dbLoad_absent_empty_corrupt
    (fileExists : Bool) (raw : String)
    (decrypt : String → Except String (List Rec)) :
    (fileExists = false → dbLoad fileExists raw decrypt = Except.ok []) ∧
    (raw = "" → dbLoad fileExists raw decrypt = Except.ok []) ∧
    (∀ e, fileExists = true → raw ≠ "" → decrypt raw = Except.error e →
      dbLoad fileExists raw decrypt =
        Except.error "Database file is corrupt or unreadable") := by
  refine ⟨?_, ?_, ?_⟩
  · intro h; simp [dbLoad, h]
  · intro h
    subst h
    cases fileExists <;> simp [dbLoad]
  · intro e hx hr hd
    simp [dbLoad, hx, hr, hd]

/-- C6 witness: a present file with undecryptable content raises the
corruption error. -/
theorem dbLoad_absent_empty_corrupt_witness :
    dbLoad true "garbage" (fun _ => Except.error "bad padding") =
      Except.error "Database file is corrupt or unreadable" :=
  (dbLoad_absent_empty_corrupt true "garbage"
      (fun _ => Except.error "bad padding")).2.2 "bad padding" rfl (by decide) rfl

/-!
## C10 — snapshot at construction; commit overwrites interleaved mutations
-/

/-- C10: the private snapshot is taken when the `Transaction` object is
constructed (`txnInit`), entering the context does not retake it, and
commit installs that snapshot wholesale — so for ANY store state `dbMid`
reached by direct mutations after construction, the committed record list
equals the construction-time list, and a record added directly in between
(not present at construction) is gone after commit. -/
theorem txn_snapshot_at_construction_commit_overwrites (db dbMid : DB) :
    (txnInit db).snapshot = db.data ∧
    (∀ t : Txn, (txnEnter t).snapshot = t.snapshot) ∧
    (∃ db2 t2, txnCommit dbMid (txnEnter (txnInit db)) = Except.ok (db2, t2) ∧
      db2.data = db.data ∧ db2.file = some db.data ∧
      (∀ r, r ∈ dbMid.data → r ∉ db.data → r ∉ db2.data)) := by
  refine ⟨rfl, fun t => rfl, ?_⟩
  refine ⟨_, _, rfl, rfl, rfl, ?_⟩
  intro r _ hnot
  exact hnot

/-!
## C2 — transaction isolation, rollback, commit
-/

/-- A successful `Transaction.insert` leaves the database untouched, keeps
the flags, and appends the validated record to the snapshot. -/
theorem txnInsert_ok {vld : Validator} {db : DB} {t : Txn} {r : Rec}
    {db1 : DB} {t1 : Txn} (h : txnInsert vld db t r = Except.ok (db1, t1)) :
    db1 = db ∧ t1.active = t.active ∧ t1.committed = t.committed ∧
      t1.rolledBack = t.rolledBack ∧
      ∃ r', vld t.snapshot r = Except.ok r' ∧ t1.snapshot = t.snapshot ++ [r'] := by
  unfold txnInsert at h
  split_ifs at h
  rcases hv : vld t.snapshot r with e | r' <;> rw [hv] at h
  · cases h
  · injection h with h2
    cases h2
    exact ⟨rfl, rfl, rfl, rfl, r', rfl, rfl⟩

/-- A successful `Transaction.update` leaves the database untouched, keeps
the flags, and maps only the snapshot. -/
theorem txnUpdate_ok {db : DB} {t : Txn} {q : List (String × Value)} {u : Rec}
    {db1 : DB} {t1 : Txn} (h : txnUpdate db t q u = Except.ok (db1, t1)) :
    db1 = db ∧ t1.active = t.active ∧ t1.committed = t.committed ∧
      t1.rolledBack = t.rolledBack ∧
      t1.snapshot = t.snapshot.map (fun item =>
        if softMatch item q then dictUpdate item u else item) := by
  unfold txnUpdate at h
  split_ifs at h
  injection h with h2
  cases h2
  exact ⟨rfl, rfl, rfl, rfl, rfl⟩

/-- A successful `Transaction.delete` leaves the database untouched, keeps
the flags, and filters only the snapshot. -/
theorem txnDelete_ok {db : DB} {t : Txn} {q : List (String × Value)}
    {db1 : DB} {t1 : Txn} (h : txnDelete db t q = Except.ok (db1, t1)) :
    db1 = db ∧ t1.active = t.active ∧ t1.committed = t.committed ∧
      t1.rolledBack = t.rolledBack ∧
      t1.snapshot = t.snapshot.filter (fun d => !softMatch d q) := by
  unfold txnDelete at h
  split_ifs at h
  injection h with h2
  cases h2
  exact ⟨rfl, rfl, rfl, rfl, rfl⟩

/-- Queued operations never touch the database state and never change the
transaction flags. -/
theorem applyTxnOps_frame (vld : Validator) :
    ∀ (ops : List TxnOp) (db : DB) (t : Txn) (db' : DB) (t' : Txn),
      applyTxnOps vld (db, t) ops = Except.ok (db', t') →
      db' = db ∧ t'.active = t.active ∧ t'.committed = t.committed ∧
        t'.rolledBack = t.rolledBack := by
  intro ops
  induction ops with
  | nil =>
      intro db t db' t' h
      injection h with h2
      cases h2
      exact ⟨rfl, rfl, rfl, rfl⟩
  | cons op ops ih =>
      intro db t db' t' h
      simp only [applyTxnOps] at h
      rcases hop : applyTxnOp vld (db, t) op with e | st1 <;> rw [hop] at h
      · cases h
      · obtain ⟨db1, t1⟩ := st1
        have step : db1 = db ∧ t1.active = t.active ∧ t1.committed = t.committed ∧
            t1.rolledBack = t.rolledBack := by
          cases op with
          | ins r => have := txnInsert_ok hop; exact ⟨this.1, this.2.1, this.2.2.1, this.2.2.2.1⟩
          | upd q u => have := txnUpdate_ok hop; exact ⟨this.1, this.2.1, this.2.2.1, this.2.2.2.1⟩
          | del q => have := txnDelete_ok hop; exact ⟨this.1, this.2.1, this.2.2.1, this.2.2.2.1⟩
        obtain ⟨hdb1, ha1, hc1, hr1⟩ := step
        obtain ⟨hdb', ha', hc', hr'⟩ := ih db1 t1 db' t' h
        exact ⟨hdb' ▸ hdb1, ha1 ▸ ha', hc1 ▸ hc', hr1 ▸ hr'⟩

/-- With an identity validator, a run of queued inserts appends exactly
those records to the snapshot (and touches nothing else). -/
theorem applyTxnOps_inserts (vld : Validator)
    (hv : ∀ s r, vld s r = Except.ok r) :
    ∀ (rs : List Rec) (db : DB) (t : Txn),
      t.active = true → t.committed = false → t.rolledBack = false →
      ∃ t', applyTxnOps vld (db, t) (rs.map TxnOp.ins) = Except.ok (db, t') ∧
        t'.snapshot = t.snapshot ++ rs := by
  intro rs
  induction rs with
  | nil => intro db t _ _ _; exact ⟨t, rfl, by simp⟩
  | cons r rs ih =>
      intro db t ha hc hr
      have hstep : txnInsert vld db t r = Except.ok
          (db, { t with snapshot := t.snapshot ++ [r],
                        opsLog := t.opsLog ++ [TxnLog.ins r] }) := by
        unfold txnInsert
        rw [hc, ha, hr]
        simp [hv]
      obtain ⟨t', hrun, hsnap⟩ := ih db
        { t with snapshot := t.snapshot ++ [r], opsLog := t.opsLog ++ [TxnLog.ins r] }
        ha hc hr
      refine ⟨t', ?_, ?_⟩
      · simp only [List.map_cons, applyTxnOps, applyTxnOp, hstep]
        exact hrun
      · rw [hsnap]; simp

/-- C2: over an active transaction, every successful run of queued
inserts/updates/deletes leaves the store (and the length of its live record
list) unchanged; rollback then leaves the store holding its original
records with no queued insert added; commit installs the snapshot as the
live list and persists it; and an insert-only run with a non-raising
validator makes the snapshot exactly the original records plus the queued
ones — visible only after commit. -/
theorem transaction_isolation_rollback_commit
    (vld : Validator) (db : DB) (ops : List TxnOp) (db' : DB) (t' : Txn)
    (h : applyTxnOps vld (db, txnEnter (txnInit db)) ops = Except.ok (db', t')) :
    db' = db ∧ db'.data = db.data ∧ db'.data.length = db.data.length ∧
    (∃ tR, txnRollback db' t' = Except.ok (db', tR) ∧ tR.rolledBack = true ∧
      db'.data = db.data) ∧
    (∀ r ∈ insertedRecs ops, r ∉ db.data → r ∉ db'.data) ∧
    (∃ db2 t2, txnCommit db' t' = Except.ok (db2, t2) ∧
      db2.data = t'.snapshot ∧ db2.file = some t'.snapshot) ∧
    (∀ rs : List Rec, ops = rs.map TxnOp.ins → (∀ s r, vld s r = Except.ok r) →
      t'.snapshot = db.data ++ rs ∧
        t'.snapshot.length = db.data.length + rs.length) := by
  obtain ⟨hdb, ha, hc, hr⟩ := applyTxnOps_frame vld ops db (txnEnter (txnInit db)) db' t' h
  have ha' : t'.active = true := ha
  have hc' : t'.committed = false := hc
  have hr' : t'.rolledBack = false := hr
  have hdata : db'.data = db.data := by rw [hdb]
  refine ⟨hdb, hdata, by rw [hdata], ?_, ?_, ?_, ?_⟩
  · refine ⟨{ t' with snapshot := [], opsLog := [], rolledBack := true, active := false }, ?_, rfl, hdata⟩
    unfold txnRollback
    rw [hc', hr']
    simp
  · intro r _ hno
    rw [hdata]
    exact hno
  · refine ⟨dbSave { db' with data := t'.snapshot, cache := db'.cache.invalidate }, { t' with committed := true, active := false }, ?_, rfl, rfl⟩
    unfold txnCommit
    rw [hc', hr', ha']
    simp
  · intro rs hops hv
    subst hops
    obtain ⟨t'', hrun, hsnap⟩ := applyTxnOps_inserts vld hv rs db
      (txnEnter (txnInit db)) rfl rfl rfl
    rw [h] at hrun
    injection hrun with h2
    have ht : t' = t'' := congrArg Prod.snd h2
    rw [ht, hsnap]
    constructor
    · rfl
    · simp [txnInit, txnEnter]

/-- C2 witness: one queued insert on a concrete store — isolation before
commit, exactly one record added in the snapshot. -/
theorem transaction_isolation_rollback_commit_witness :
    ∃ db' t', applyTxnOps (fun _ r => Except.ok r)
        (c1db, txnEnter (txnInit c1db)) [TxnOp.ins [("id", Value.vint 2)]] =
        Except.ok (db', t') ∧
      db' = c1db ∧ t'.snapshot = c1db.data ++ [[("id", Value.vint 2)]] := by
  obtain ⟨⟨db', t'⟩, hp⟩ : ∃ p, applyTxnOps (fun _ r => Except.ok r)
      (c1db, txnEnter (txnInit c1db)) [TxnOp.ins [("id", Value.vint 2)]] =
      Except.ok p := ⟨_, rfl⟩
  have main := transaction_isolation_rollback_commit (fun _ r => Except.ok r)
    c1db [TxnOp.ins [("id", Value.vint 2)]] db' t' hp
  exact ⟨db', t', hp, main.1,
    (main.2.2.2.2.2.2 [[("id", Value.vint 2)]] rfl (fun _ _ => rfl)).1⟩

/-!
## C7 — cache keys are insertion-order independent
-/

/-- Two key-sorted lists that are permutations of each other and have
pairwise-distinct keys are equal. -/
theorem sorted_key_perm_eq {α : Type} :
    ∀ {l1 l2 : List (String × α)}, l1.Perm l2 →
      l1.Pairwise (fun a b => a.1 ≤ b.1) →
      l2.Pairwise (fun a b => a.1 ≤ b.1) →
      (l1.map Prod.fst).Nodup → l1 = l2 := by
  intro l1
  induction l1 with
  | nil => intro l2 hp _ _ _; exact (hp.symm.eq_nil).symm
  | cons a l1' ih =>
      intro l2 hp hs1 hs2 hnd
      cases l2 with
      | nil => exact absurd hp.eq_nil (by simp)
      | cons b l2' =>
          by_cases hab : a = b
          · subst hab
            have htail := hp.cons_inv
            have := ih htail hs1.of_cons hs2.of_cons (by simpa using hnd.of_cons)
            rw [this]
          · have haMem : a ∈ b :: l2' := hp.subset (List.mem_cons_self a l1')
            have haMem' : a ∈ l2' := by
              rcases List.mem_cons.mp haMem with h | h
              · exact absurd h hab
              · exact h
            have hbMem : b ∈ a :: l1' := hp.symm.subset (List.mem_cons_self b l2')
            have hbMem' : b ∈ l1' := by
              rcases List.mem_cons.mp hbMem with h | h
              · exact absurd h.symm hab
              · exact h
            have h1 : a.1 ≤ b.1 := (List.pairwise_cons.mp hs1).1 b hbMem'
            have h2 : b.1 ≤ a.1 := (List.pairwise_cons.mp hs2).1 a haMem'
            have hkey : b.1 = a.1 := le_antisymm h2 h1
            have : a.1 ∈ l1'.map Prod.fst :=
              hkey ▸ List.mem_map_of_mem Prod.fst hbMem'
            exact absurd this (by simpa using (List.nodup_cons.mp hnd).1)

/-- The Bool comparator used by `sortByKey` is transitive. -/
theorem keyLe_trans {α : Type} (a b c : String × α)
    (h1 : decide (a.1 ≤ b.1) = true) (h2 : decide (b.1 ≤ c.1) = true) :
    decide (a.1 ≤ c.1) = true := by
  simp only [decide_eq_true_eq] at *
  exact le_trans h1 h2

/-- The Bool comparator used by `sortByKey` is total. -/
theorem keyLe_total {α : Type} (a b : String × α) :
    (decide (a.1 ≤ b.1) || decide (b.1 ≤ a.1)) = true := by
  rcases le_total a.1 b.1 with h | h <;> simp [h]

/-- `sortByKey` canonicalizes: permuted inputs with distinct keys sort to
the same list. -/
theorem sortByKey_perm_eq {α : Type} {l1 l2 : List (String × α)}
    (hp : l1.Perm l2) (hnd : (l1.map Prod.fst).Nodup) :
    sortByKey l1 = sortByKey l2 := by
  have hs1 := @List.sorted_mergeSort (String × α)
    (fun a b => decide (a.1 ≤ b.1))
    (fun a b c => keyLe_trans a b c) (fun a b => keyLe_total a b) l1
  have hs2 := @List.sorted_mergeSort (String × α)
    (fun a b => decide (a.1 ≤ b.1))
    (fun a b c => keyLe_trans a b c) (fun a b => keyLe_total a b) l2
  have hperm : (sortByKey l1).Perm (sortByKey l2) :=
    ((List.mergeSort_perm l1 _).trans hp).trans (List.mergeSort_perm l2 _).symm
  have hnd1 : ((sortByKey l1).map Prod.fst).Nodup :=
    ((List.mergeSort_perm l1 _).map Prod.fst).nodup_iff.mpr hnd
  exact sorted_key_perm_eq hperm
    (hs1.imp (fun h => by simpa using h))
    (hs2.imp (fun h => by simpa using h)) hnd1

/-- `_make_key` is independent of field insertion order (for dict-shaped
queries: pairwise-distinct field names). -/
theorem makeKey_perm {q1 q2 : Query} (hp : q1.Perm q2)
    (hnd : (q1.map Prod.fst).Nodup) : makeKey q1 = makeKey q2 := by
  unfold makeKey
  rw [sortByKey_perm_eq hp hnd]

/-- After erasing the binding of `k` from a list with pairwise-distinct
keys, no binding of `k` remains. -/
theorem keys_eraseP {β : Type} :
    ∀ (l : List (String × β)) (k : String), (l.map Prod.fst).Nodup →
      ∀ p ∈ l.eraseP (fun p => p.1 = k), p.1 ≠ k := by
  intro l k
  induction l with
  | nil => intro _ p hp; cases hp
  | cons a l' ih =>
      intro hnd p hp
      by_cases ha : a.1 = k
      · rw [List.eraseP_cons_of_pos (by simp [ha])] at hp
        intro hpk
        have : p.1 ∈ l'.map Prod.fst := List.mem_map_of_mem Prod.fst hp
        rw [hpk, ← ha] at this
        exact (List.nodup_cons.mp hnd).1 this
      · rw [List.eraseP_cons_of_neg (by simp [ha])] at hp
        rcases List.mem_cons.mp hp with h | h
        · rw [h]; exact ha
        · exact ih (List.nodup_cons.mp hnd).2 p h

/-- `move_to_end` does not add entries. -/
theorem moveToEnd_subset (l : List (String × List Rec)) (k : String) :
    ∀ p ∈ moveToEnd l k, p ∈ l := by
  intro p hp
  unfold moveToEnd at hp
  rcases hf : l.find? (fun p => p.1 = k) with _ | e <;> rw [hf] at hp
  · exact hp
  · rcases List.mem_append.mp hp with h | h
    · exact List.mem_of_mem_eraseP h
    · simp only [List.mem_singleton] at h
      exact h ▸ List.mem_of_find?_eq_some hf

/-- `move_to_end` keeps keys pairwise distinct. -/
theorem moveToEnd_nodup (l : List (String × List Rec)) (k : String)
    (hnd : (l.map Prod.fst).Nodup) :
    ((moveToEnd l k).map Prod.fst).Nodup := by
  unfold moveToEnd
  rcases hf : l.find? (fun p => p.1 = k) with _ | e <;> simp only [hf]
  · exact hnd
  · have hek : e.1 = k := by
      have := List.find?_some hf
      simpa using this
    have hsub : (l.eraseP (fun p => p.1 = k)).Sublist l := List.eraseP_sublist l
    have hndE : ((l.eraseP (fun p => p.1 = k)).map Prod.fst).Nodup :=
      (hsub.map Prod.fst).nodup hnd
    rw [List.map_append]

    refine List.Nodup.append hndE (by simp) ?_
    intro x hx hy
    simp only [List.map_cons, List.map_nil, List.mem_singleton] at hy
    obtain ⟨p, hp, hpx⟩ := List.mem_map.mp hx
    have := keys_eraseP l k hnd p hp
    rw [hpx] at this
    rw [hy, hek] at this
    exact this rfl

/-- `find?` on a list ending in the looked-up key. -/
theorem find?_last_key {β : Type} (front : List (String × β)) (k : String) (v : β)
    (h : ∀ p ∈ front, p.1 ≠ k) :
    (front ++ [(k, v)]).find? (fun p => p.1 = k) = some (k, v) := by
  induction front with
  | nil => simp [List.find?]
  | cons a front' ih =>
      have ha : a.1 ≠ k := h a (List.mem_cons_self a front')
      rw [List.cons_append, List.find?_cons_of_neg _ (by simpa using ha)]
      exact ih (fun p hp => h p (List.mem_cons_of_mem a hp))

/-- Shape of the cache after `set`: the new binding sits alone at the MRU
end. -/
theorem setCache_shape (c : QCache) (q : Query) (r : List Rec)
    (he : c.enabled = true) (hm : 1 ≤ c.maxSize)
    (hc : (c.cache.map Prod.fst).Nodup) :
    (c.set q r).enabled = true ∧
    ∃ front, (c.set q r).cache = front ++ [(makeKey q, r)] ∧
      ∀ p ∈ front, p.1 ≠ makeKey q := by
  have hstored : (if r.isEmpty then ([] : List Rec) else r) = r := by
    cases r <;> simp
  have hnd1 := moveToEnd_nodup c.cache (makeKey q) hc
  have hfront := keys_eraseP (moveToEnd c.cache (makeKey q)) (makeKey q) hnd1
  unfold QCache.set
  rw [he]
  simp only [Bool.not_true, Bool.false_eq_true, if_false, hstored]
  generalize hf0 : (moveToEnd c.cache (makeKey q)).eraseP
      (fun p => p.1 = makeKey q) = front0 at hfront ⊢
  by_cases hlen : c.maxSize < (front0 ++ [(makeKey q, r)]).length
  · rw [if_pos hlen]
    cases front0 with
    | nil =>
        simp at hlen
        omega
    | cons a front1 =>
        refine ⟨rfl, front1, rfl, ?_⟩
        intro p hp
        exact hfront p (List.mem_cons_of_mem a hp)
  · rw [if_neg hlen]
    exact ⟨rfl, front0, rfl, hfront⟩

/-- C7: on an enabled cache with pairwise-distinct cached keys, two queries
equal as field-to-value mappings but enumerated in different orders
normalize to the same key, so `get(q1)` right after `set(q2, r)` returns
`r`. -/
theorem cache_key_insertion_order_independent
    (c : QCache) (q1 q2 : Query) (r : List Rec)
    (he : c.enabled = true) (hm : 1 ≤ c.maxSize)
    (hperm : q1.Perm q2) (hq : (q1.map Prod.fst).Nodup)
    (hc : (c.cache.map Prod.fst).Nodup) :
    ((c.set q2 r).get q1).1 = some r := by
  obtain ⟨he2, front, hshape, hfr⟩ := setCache_shape c q2 r he hm hc
  have hk : makeKey q1 = makeKey q2 := makeKey_perm hperm hq
  unfold QCache.get
  rw [he2]
  simp only [Bool.not_true, Bool.false_eq_true, if_false]
  rw [hshape, hk, find?_last_key front (makeKey q2) r hfr]

/-- C7 witness: `{a:1, b:2}` and `{b:2, a:1}` hit the same cache slot. -/
theorem cache_key_insertion_order_independent_witness :
    (((QCache.init 100 true).set
        [("b", QVal.lit (Value.vint 2)), ("a", QVal.lit (Value.vint 1))]
        [aliceRec]).get
      [("a", QVal.lit (Value.vint 1)), ("b", QVal.lit (Value.vint 2))]).1 =
      some [aliceRec] :=
  cache_key_insertion_order_independent (QCache.init 100 true)
    [("a", QVal.lit (Value.vint 1)), ("b", QVal.lit (Value.vint 2))]
    [("b", QVal.lit (Value.vint 2)), ("a", QVal.lit (Value.vint 1))]
    [aliceRec] rfl (by decide) (List.Perm.swap _ _ _) (by decide) (by decide)

/-!
## C8 — LRU capacity bound, single-LRU eviction, promotion on `get`
-/

/-- `move_to_end` keeps the number of entries. -/
theorem moveToEnd_length (l : List (String × List Rec)) (k : String) :
    (moveToEnd l k).length = l.length := by
  unfold moveToEnd
  rcases hf : l.find? (fun p => p.1 = k) with _ | e <;> simp only [hf]
  have hmem := List.mem_of_find?_eq_some hf
  have hpe := List.find?_some hf
  rw [List.length_append, List.length_eraseP_of_mem hmem hpe]
  have hpos : 1 ≤ l.length := List.length_pos_of_mem hmem
  simp only [List.length_cons, List.length_nil]
  omega

/-- No cache operation changes the capacity. -/
theorem applyCacheOp_maxSize (c : QCache) (op : CacheOp) :
    (applyCacheOp c op).maxSize = c.maxSize := by
  cases op <;>
    simp only [applyCacheOp, QCache.get, QCache.set, QCache.invalidate,
      QCache.enable, QCache.disable, QCache.resetStats] <;>
    repeat' first | split | rfl

/-- Every cache operation preserves `size ≤ capacity`. -/
theorem applyCacheOp_length (c : QCache) (op : CacheOp)
    (h : c.cache.length ≤ c.maxSize) :
    (applyCacheOp c op).cache.length ≤ c.maxSize := by
  cases op with
  | get q =>
      simp only [applyCacheOp, QCache.get]
      split
      · exact h
      · split
        · simpa [moveToEnd_length] using h
        · exact h
  | set q r =>
      simp only [applyCacheOp, QCache.set]
      split
      · exact h
      · have hlen2 : ((moveToEnd c.cache (makeKey q)).eraseP
            (fun p => p.1 = makeKey q)).length ≤ c.cache.length := by
          have := @List.length_eraseP_le _ (fun p => decide (p.1 = makeKey q))
            (moveToEnd c.cache (makeKey q))
          rw [moveToEnd_length] at this
          exact this
        split <;> split
        all_goals simp only [List.length_tail, List.length_append, List.length_cons,
          List.length_nil] at *
        all_goals omega
  | invalidate => simpa [applyCacheOp, QCache.invalidate]
  | clear => simpa [applyCacheOp, QCache.invalidate]
  | enable => simpa [applyCacheOp, QCache.enable] using h
  | disable => simpa [applyCacheOp, QCache.disable]
  | resetStats => simpa [applyCacheOp, QCache.resetStats] using h

/-- The capacity invariant holds along any operation sequence. -/
theorem applyCacheOps_length :
    ∀ (ops : List CacheOp) (c : QCache), c.cache.length ≤ c.maxSize →
      (applyCacheOps c ops).cache.length ≤ (applyCacheOps c ops).maxSize := by
  intro ops
  induction ops with
  | nil => intro c h; exact h
  | cons op ops ih =>
      intro c h
      simp only [applyCacheOps]
      exact ih (applyCacheOp c op)
        (by rw [applyCacheOp_maxSize]; exact applyCacheOp_length c op h)

/-- A `set` of a fresh key at capacity evicts exactly the head (the LRU
entry) and appends the new binding at the MRU end. -/
theorem set_fresh_at_capacity (c : QCache) (q : Query) (r : List Rec)
    (he : c.enabled = true) (habs : ∀ p ∈ c.cache, p.1 ≠ makeKey q)
    (hfull : c.cache.length = c.maxSize) (hm : 1 ≤ c.maxSize) :
    (c.set q r).cache = c.cache.tail ++ [(makeKey q, r)] := by
  have hstored : (if r.isEmpty then ([] : List Rec) else r) = r := by
    cases r <;> simp
  have hfind : c.cache.find? (fun p => p.1 = makeKey q) = none :=
    List.find?_eq_none.mpr (fun p hp => by simpa using habs p hp)
  have hmv : moveToEnd c.cache (makeKey q) = c.cache := by
    unfold moveToEnd; rw [hfind]
  have herase : c.cache.eraseP (fun p => p.1 = makeKey q) = c.cache :=
    List.eraseP_of_forall_not (fun p hp => by simpa using habs p hp)
  unfold QCache.set
  rw [he]
  simp only [Bool.not_true, Bool.false_eq_true, if_false, hstored, hmv, herase]
  rw [if_pos (by rw [List.length_append, hfull]; simp)]
  exact List.tail_append_of_ne_nil (by intro h; rw [h] at hfull; simp at hfull; omega)

/-- `get` of a present key moves its binding to the MRU end and leaves the
other fields (except the hit counter) unchanged. -/
theorem get_present (c : QCache) (q : Query)
    (he : c.enabled = true) (h1 : makeKey q ∈ c.cache.map Prod.fst) :
    (c.get q).2.cache = moveToEnd c.cache (makeKey q) ∧
    (c.get q).2.enabled = c.enabled ∧ (c.get q).2.maxSize = c.maxSize := by
  obtain ⟨p, hp, hpk⟩ := List.mem_map.mp h1
  have hsome : (c.cache.find? (fun p => p.1 = makeKey q)).isSome := by
    rw [List.find?_isSome]
    exact ⟨p, hp, by simp [hpk]⟩
  unfold QCache.get
  rw [he]
  simp only [Bool.not_true, Bool.false_eq_true, if_false]
  rcases hf : c.cache.find? (fun p => p.1 = makeKey q) with _ | e
  · rw [hf] at hsome; simp at hsome
  · simp [hf]

/-- A list whose unique binding of `k` sits at the MRU end is fixed by
`move_to_end k`. -/
theorem moveToEnd_fixed (front : List (String × List Rec)) (k : String) (v : List Rec)
    (hfr : ∀ p ∈ front, p.1 ≠ k) :
    moveToEnd (front ++ [(k, v)]) k = front ++ [(k, v)] := by
  unfold moveToEnd
  rw [find?_last_key front k v hfr]
  rw [List.eraseP_append_right _ (fun p hp => by simpa using hfr p hp)]
  simp

/-- C8: (capacity) starting from a fresh enabled cache, any sequence of
operations leaves at most `max_size` entries; (eviction) a `set` of a fresh
key at capacity drops exactly the least-recently-used head entry; and
(promotion) after `get`-ing a present key any number of times, a fresh
`set` at capacity evicts an unaccessed entry, never the accessed key. -/
theorem cache_lru_capacity_eviction_promotion :
    (∀ (maxSize : Nat) (ops : List CacheOp), 1 ≤ maxSize →
      (applyCacheOps (QCache.init maxSize true) ops).cache.length ≤ maxSize) ∧
    (∀ (c : QCache) (q : Query) (r : List Rec), c.enabled = true →
      (∀ p ∈ c.cache, p.1 ≠ makeKey q) → c.cache.length = c.maxSize →
      1 ≤ c.maxSize →
      (c.set q r).cache = c.cache.tail ++ [(makeKey q, r)]) ∧
    (∀ (c : QCache) (q1 qf : Query) (r : List Rec) (n : Nat),
      c.enabled = true → (c.cache.map Prod.fst).Nodup →
      makeKey q1 ∈ c.cache.map Prod.fst →
      (∃ k2 ∈ c.cache.map Prod.fst, k2 ≠ makeKey q1) →
      (∀ p ∈ c.cache, p.1 ≠ makeKey qf) →
      c.cache.length = c.maxSize →
      makeKey q1 ∈ ((getIter c q1 (n + 1)).set qf r).cache.map Prod.fst) := by
  refine ⟨?_, ?_, ?_⟩
  · intro maxSize ops _
    have := applyCacheOps_length ops (QCache.init maxSize true) (by simp [QCache.init])
    have hmax : (applyCacheOps (QCache.init maxSize true) ops).maxSize = maxSize := by
      generalize hc : QCache.init maxSize true = c0 at *
      have : ∀ (ops' : List CacheOp) (c : QCache),
          (applyCacheOps c ops').maxSize = c.maxSize := by
        intro ops'
        induction ops' with
        | nil => intro c; rfl
        | cons op ops' ih =>
            intro c
            simp only [applyCacheOps]
            rw [ih, applyCacheOp_maxSize]
      rw [this ops c0, ← hc]
      rfl
    rw [hmax] at this
    exact this
  · exact set_fresh_at_capacity
  · intro c q1 qf r n he hnd h1 h2 hf hfull
    simp only [getIter]
    -- after the first get, the accessed binding is the unique MRU entry
    obtain ⟨p1, hp1, hp1k⟩ := List.mem_map.mp h1
    have hfind : (c.cache.find? (fun p => p.1 = makeKey q1)).isSome := by
      rw [List.find?_isSome]; exact ⟨p1, hp1, by simp [hp1k]⟩
    rcases hfe : c.cache.find? (fun p => p.1 = makeKey q1) with _ | e
    · rw [hfe] at hfind; cases hfind
    have hek : e.1 = makeKey q1 := by simpa using List.find?_some hfe
    have hmv : moveToEnd c.cache (makeKey q1) =
        c.cache.eraseP (fun p => p.1 = makeKey q1) ++ [e] := by
      unfold moveToEnd; rw [hfe]
    have hfr : ∀ p ∈ c.cache.eraseP (fun p => p.1 = makeKey q1),
        p.1 ≠ makeKey q1 := keys_eraseP c.cache (makeKey q1) hnd
    -- the cache after (n+1) gets
    have hiter : ∀ m (cc : QCache), cc.enabled = true →
        cc.cache = c.cache.eraseP (fun p => p.1 = makeKey q1) ++ [e] →
        (getIter cc q1 m).cache = c.cache.eraseP (fun p => p.1 = makeKey q1) ++ [e] ∧
        (getIter cc q1 m).enabled = true := by
      intro m
      induction m with
      | zero => intro cc _ hcc; exact ⟨hcc, by assumption⟩
      | succ m ih =>
          intro cc hen hcc
          simp only [getIter]
          have hmem : makeKey q1 ∈ cc.cache.map Prod.fst := by
            rw [hcc, List.map_append]
            simp [hek]
          obtain ⟨hc1, hc2, _⟩ := get_present cc q1 hen hmem
          refine ih (cc.get q1).2 (by rw [hc2, hen]) ?_
          rw [hc1, hcc, ← hek]
          exact moveToEnd_fixed _ e.1 e.2 (by rw [hek]; exact hfr)
    have hfirst : ((c.get q1).2).cache =
        c.cache.eraseP (fun p => p.1 = makeKey q1) ++ [e] ∧
        ((c.get q1).2).enabled = true := by
      obtain ⟨hc1, hc2, _⟩ := get_present c q1 he h1
      exact ⟨by rw [hc1, hmv], by rw [hc2, he]⟩
    have hiter' := hiter n (c.get q1).2 hfirst.2 hfirst.1
    -- the final set: fresh key, capacity still full
    set cF := getIter (c.get q1).2 q1 n with hcF
    have hcFc : cF.cache = c.cache.eraseP (fun p => p.1 = makeKey q1) ++ [e] :=
      hiter'.1
    have hcFe : cF.enabled = true := hiter'.2
    have hsub : ∀ p ∈ cF.cache, p ∈ c.cache := by
      intro p hp
      rw [hcFc] at hp
      rcases List.mem_append.mp hp with h | h
      · exact List.mem_of_mem_eraseP h
      · simp only [List.mem_singleton] at h
        exact h ▸ List.mem_of_find?_eq_some hfe
    have hffresh : ∀ p ∈ cF.cache, p.1 ≠ makeKey qf :=
      fun p hp => hf p (hsub p hp)
    have hstored : (if r.isEmpty then ([] : List Rec) else r) = r := by
      cases r <;> simp
    have hfind2 : cF.cache.find? (fun p => p.1 = makeKey qf) = none :=
      List.find?_eq_none.mpr (fun p hp => by simpa using hffresh p hp)
    have hmv2 : moveToEnd cF.cache (makeKey qf) = cF.cache := by
      unfold moveToEnd; rw [hfind2]
    have herase2 : cF.cache.eraseP (fun p => p.1 = makeKey qf) = cF.cache :=
      List.eraseP_of_forall_not (fun p hp => by simpa using hffresh p hp)
    -- the front is nonempty: the cache held a second key besides q1's
    obtain ⟨k2, hk2mem, hk2ne⟩ := h2
    obtain ⟨p2, hp2, hp2k⟩ := List.mem_map.mp hk2mem
    have hp2er : p2 ∈ c.cache.eraseP (fun p => p.1 = makeKey q1) := by
      have hsl : c.cache.eraseP (fun p => p.1 = makeKey q1) =
          c.cache.eraseP (fun p => p.1 = makeKey q1) := rfl
      -- p2's key differs from the erased key, so eraseP keeps it
      have : ∀ (l : List (String × List Rec)), p2 ∈ l →
          p2 ∈ l.eraseP (fun p => p.1 = makeKey q1) := by
        intro l
        induction l with
        | nil => intro h; cases h
        | cons a l' ih =>
            intro hmem
            by_cases hpa : a.1 = makeKey q1
            · rw [List.eraseP_cons_of_pos (by simp [hpa])]
              rcases List.mem_cons.mp hmem with h | h
              · exact absurd (h ▸ hpa) (hp2k ▸ hk2ne)
              · exact h
            · rw [List.eraseP_cons_of_neg (by simp [hpa])]
              rcases List.mem_cons.mp hmem with h | h
              · exact h ▸ List.mem_cons_self a _
              · exact List.mem_cons_of_mem a (ih h)
      exact this c.cache hp2
    unfold QCache.set
    rw [hcFe]
    simp only [Bool.not_true, Bool.false_eq_true, if_false, hstored, hmv2, herase2]
    split
    · -- eviction: the head comes off the erased front, not off q1's entry
      rw [hcFc]
      cases hfe2 : c.cache.eraseP (fun p => p.1 = makeKey q1) with
      | nil => rw [hfe2] at hp2er; cases hp2er
      | cons a front1 =>
          rw [List.cons_append, List.cons_append, List.tail_cons, List.map_append,
            List.map_append]
          simp [hek]
    · rw [hcFc, List.map_append, List.map_append]
      simp [hek]

unseal List.merge List.mergeSort in
/-- C8 witness: a capacity-1 sequence stays within bounds; a fresh set at
capacity evicts the single LRU entry; and after `get`-ing the LRU key, a
fresh set at capacity keeps the accessed key (the unaccessed one goes). -/
theorem cache_lru_capacity_eviction_promotion_witness :
    (applyCacheOps (QCache.init 1 true)
      [CacheOp.set [] [], CacheOp.set [("a", QVal.lit Value.vnull)] []]).cache.length ≤ 1 ∧
    (({ maxSize := 1, enabled := true, cache := [("k0", [])], hits := 0,
        misses := 0 : QCache }).set [] [aliceRec]).cache =
      [(makeKey [], [aliceRec])] ∧
    makeKey [("a", QVal.lit Value.vnull)] ∈
      ((getIter c8cache [("a", QVal.lit Value.vnull)] 1).set
        [("c", QVal.lit Value.vnull)] []).cache.map Prod.fst := by
  refine ⟨?_, ?_, ?_⟩
  · exact cache_lru_capacity_eviction_promotion.1 1
      [CacheOp.set [] [], CacheOp.set [("a", QVal.lit Value.vnull)] []] (by decide)
  · have h := cache_lru_capacity_eviction_promotion.2.1
      { maxSize := 1, enabled := true, cache := [("k0", [])], hits := 0, misses := 0 }
      [] [aliceRec] rfl (by decide) rfl (by decide)
    simpa using h
  · exact cache_lru_capacity_eviction_promotion.2.2 c8cache
      [("a", QVal.lit Value.vnull)] [("c", QVal.lit Value.vnull)] [] 0
      rfl (by decide) (by decide)
      ⟨makeKey [("b", QVal.lit Value.vnull)], by decide, by decide⟩
      (by decide) rfl

/-!
## C9 — `Database.delete` and missing query fields
-/

/-- Any error `strictAll` raises is a `KeyError`. -/
theorem strictAll_error_eq {d : Rec} :
    ∀ {q : List (String × Value)} {e : PyErr},
      strictAll d q = Except.error e → e = PyErr.keyErr := by
  intro q
  induction q with
  | nil => intro e h; simp [strictAll] at h
  | cons p rest ih =>
      intro e h
      obtain ⟨k, v⟩ := p
      simp only [strictAll] at h
      rcases hk : lookupV d k with _ | w <;> simp only [hk] at h
      · injection h with h'; exact h'.symm
      · by_cases hp : pyEq w v = true
        · rw [if_pos hp] at h; exact ih h
        · rw [if_neg hp] at h; cases h

/-- Any error the delete comprehension raises is a `KeyError`. -/
theorem strictFilterOut_error_eq :
    ∀ (data : List Rec) (q : List (String × Value)) (e : PyErr),
      strictFilterOut q data = Except.error e → e = PyErr.keyErr := by
  intro data q
  induction data with
  | nil => intro e h; cases h
  | cons d ds ih =>
      intro e h
      simp only [strictFilterOut] at h
      rcases hd : strictAll d q with e0 | b <;> simp only [hd] at h
      · injection h with h'; exact h' ▸ strictAll_error_eq hd
      · rcases hf : strictFilterOut q ds with e1 | l <;> simp only [hf] at h
        · injection h with h'; exact h' ▸ ih e1 hf
        · cases h

/-- If some record's strict evaluation raises, the whole comprehension
raises. -/
theorem strictFilterOut_error_of_mem :
    ∀ (data : List Rec) (q : List (String × Value)) (r : Rec) (e : PyErr),
      r ∈ data → strictAll r q = Except.error e →
      ∃ e', strictFilterOut q data = Except.error e' := by
  intro data q
  induction data with
  | nil => intro r e h; cases h
  | cons d ds ih =>
      intro r e hmem herr
      rcases hd : strictAll d q with e0 | b
      · exact ⟨e0, by simp [strictFilterOut, hd]⟩
      · rcases List.mem_cons.mp hmem with hEq | hTail
        · subst hEq; rw [hd] at herr; cases herr
        · obtain ⟨e', he'⟩ := ih r e hTail herr
          exact ⟨e', by simp [strictFilterOut, hd, he']⟩

/-- If no record's strict evaluation raises, the comprehension succeeds. -/
theorem strictFilterOut_ok_of_all :
    ∀ (data : List Rec) (q : List (String × Value)),
      (∀ r ∈ data, ∀ e, strictAll r q ≠ Except.error e) →
      ∃ l, strictFilterOut q data = Except.ok l := by
  intro data q
  induction data with
  | nil => intro _; exact ⟨[], rfl⟩
  | cons d ds ih =>
      intro h
      rcases hd : strictAll d q with e0 | b
      · exact absurd hd (h d (List.mem_cons_self d ds) e0)
      · obtain ⟨l, hl⟩ := ih (fun r hr => h r (List.mem_cons_of_mem d hr))
        exact ⟨if b then l else d :: l, by simp [strictFilterOut, hd, hl]⟩

/-- Exactly when the strict generator raises: evaluation reaches a missing
key, i.e. some query field is absent from the record while every field
before it (in the query's order) is present and matches. -/
theorem strictAll_error_iff (d : Rec) :
    ∀ q : List (String × Value),
      (∃ e, strictAll d q = Except.error e) ↔
      ∃ q1 k v q2, q = q1 ++ (k, v) :: q2 ∧ lookupV d k = none ∧
        ∀ p ∈ q1, ∃ w, lookupV d p.1 = some w ∧ pyEq w p.2 = true := by
  intro q
  induction q with
  | nil =>
      constructor
      · rintro ⟨e, h⟩; simp [strictAll] at h
      · rintro ⟨q1, k, v, q2, habs, -, -⟩
        exact absurd habs.symm (List.append_ne_nil_of_right_ne_nil q1 (by simp))
  | cons p rest ih =>
      obtain ⟨k0, v0⟩ := p
      constructor
      · rintro ⟨e, h⟩
        simp only [strictAll] at h
        rcases hk : lookupV d k0 with _ | w <;> simp only [hk] at h
        · exact ⟨[], k0, v0, rest, rfl, hk, by simp⟩
        · by_cases hp : pyEq w v0 = true
          · rw [if_pos hp] at h
            obtain ⟨q1, k, v, q2, hq, hnone, hpre⟩ := ih.mp ⟨e, h⟩
            refine ⟨(k0, v0) :: q1, k, v, q2, by rw [hq]; rfl, hnone, ?_⟩
            intro p hp'
            rcases List.mem_cons.mp hp' with hEq | hTail
            · subst hEq; exact ⟨w, hk, hp⟩
            · exact hpre p hTail
          · rw [if_neg hp] at h; cases h
      · rintro ⟨q1, k, v, q2, hq, hnone, hpre⟩
        cases q1 with
        | nil =>
            simp only [List.nil_append, List.cons.injEq] at hq
            obtain ⟨hpair, hrest⟩ := hq
            cases hpair
            exact ⟨PyErr.keyErr, by simp only [strictAll, hnone]⟩
        | cons p1 q1' =>
            simp only [List.cons_append, List.cons.injEq] at hq
            obtain ⟨hpair, hrest⟩ := hq
            cases hpair
            obtain ⟨w, hw, hwm⟩ := hpre (k0, v0) (List.mem_cons_self (k0, v0) q1')
            obtain ⟨e, he⟩ := ih.mpr ⟨q1', k, v, q2, hrest, hnone, fun p hp' =>
              hpre p (List.mem_cons_of_mem (k0, v0) hp')⟩
            refine ⟨e, ?_⟩
            simp only [strictAll, hw]
            rw [if_pos hwm]
            exact he

/-- C9 counterexample: the store's only record lacks field `"b"` named in
the delete query, yet `delete` completes without raising (the record is
kept as a non-match because `"a"` mismatched first). -/
theorem database_delete_missing_field_no_raise_cex :
    hasKey [("a", Value.vint 1)] "b" = false ∧
    (dbDelete c9db [("a", Value.vint 2), ("b", Value.vint 3)]).2 = none ∧
    (dbDelete c9db [("a", Value.vint 2), ("b", Value.vint 3)]).1.data =
      [[("a", Value.vint 1)]] :=
  ⟨rfl, rfl, rfl⟩

/-- C9 amended: `Database.delete` raises `KeyError` exactly when some
record's evaluation reaches a missing query field (every earlier query
field present and matching); on a raise the whole database state — record
list, cache, persisted file — is returned unchanged; if no record's
evaluation raises, `delete` completes without error.  `Transaction.delete`,
which matches with `.get`, never raises in an active transaction. -/
theorem database_delete_keyerror_frame (db : DB) (q : List (String × Value)) :
    ((∃ r ∈ db.data, ∃ e, strictAll r q = Except.error e) →
      dbDelete db q = (db, some PyErr.keyErr)) ∧
    ((∀ r ∈ db.data, ∀ e, strictAll r q ≠ Except.error e) →
      (dbDelete db q).2 = none) ∧
    (∀ r : Rec, (∃ e, strictAll r q = Except.error e) ↔
      ∃ q1 k v q2, q = q1 ++ (k, v) :: q2 ∧ lookupV r k = none ∧
        ∀ p ∈ q1, ∃ w, lookupV r p.1 = some w ∧ pyEq w p.2 = true) ∧
    (∀ t : Txn, t.active = true → t.committed = false → t.rolledBack = false →
      isOkE (txnDelete db t q) = true) := by
  refine ⟨?_, ?_, fun r => strictAll_error_iff r q, ?_⟩
  · rintro ⟨r, hmem, e, herr⟩
    obtain ⟨e', he'⟩ := strictFilterOut_error_of_mem db.data q r e hmem herr
    have hk : e' = PyErr.keyErr := strictFilterOut_error_eq db.data q e' he'
    subst hk
    simp [dbDelete, he']
  · intro hall
    obtain ⟨l, hl⟩ := strictFilterOut_ok_of_all db.data q hall
    simp [dbDelete, hl]
  · intro t ha hc hr
    simp [txnDelete, ha, hc, hr, isOkE]

/-- C9 amended witness: a record matching the first query field but lacking
the second makes `delete` raise and leave the database untouched. -/
theorem database_delete_keyerror_frame_witness :
    dbDelete c9db [("a", Value.vint 1), ("zz", Value.vint 3)] =
      (c9db, some PyErr.keyErr) :=
  (database_delete_keyerror_frame c9db [("a", Value.vint 1), ("zz", Value.vint 3)]).1
    ⟨[("a", Value.vint 1)], by simp [c9db], PyErr.keyErr, rfl⟩

/-- C10 witness: a record inserted directly into the store after the
transaction was constructed is absent after commit. -/
theorem txn_snapshot_at_construction_commit_overwrites_witness :
    ∃ db2 t2,
      txnCommit { c1db with data := c1db.data ++ [[("id", Value.vint 2)]] }
          (txnEnter (txnInit c1db)) = Except.ok (db2, t2) ∧
      db2.data = [aliceRec] ∧ [("id", Value.vint 2)] ∉ db2.data := by
  obtain ⟨db2, t2, hc, hdata, _, habs⟩ :=
    (txn_snapshot_at_construction_commit_overwrites c1db
      { c1db with data := c1db.data ++ [[("id", Value.vint 2)]] }).2.2
  refine ⟨db2, t2, hc, hdata, habs [("id", Value.vint 2)] (by simp [c1db]) ?_⟩
  intro hmem
  simp [c1db, aliceRec] at hmem

end JFlat


